import Mathlib

/-!
# Mercury: time values, timed condition waits and the test-server handlers

A shallow embedding of `src/util/mercury_time.h`, of
`hg_thread_cond_timedwait` from `src/util/mercury_thread_condition.h`, and of
the handlers of `Testing/server_bulk_seg.c` and `test/server_posix.c`.

Conventions of the embedding:

* a C `long` (LP64) is an `Int`; every arithmetic operation of the source is
  followed by `wrapLong`, the reduction to the 64-bit two's-complement range,
  so that statements made "without overflow" carry that as a hypothesis on
  the mathematical value instead of being built into the model;
* C integer division and remainder truncate toward zero: `Int.tdiv`, `Int.tmod`;
* a C `int` truth value is `1` or `0`;
* operating-system and runtime calls are parameters carrying their results;
  a handler returns its status together with the calls it made, in order;
* in `hg_time_from_double` a `double` is a binary64 value and every operation
  rounds to nearest, ties to even; in the `_WIN32` branch of `hg_time_sleep`
  the `double` values are exact rationals.
-/

namespace Mercury

/-! ## Machine integers -/

/-- Smallest value of a 64-bit `long`. -/
def LONG_MIN : Int := -9223372036854775808

/-- Largest value of a 64-bit `long`. -/
def LONG_MAX : Int := 9223372036854775807

/-- Largest value of a 32-bit `unsigned int`. -/
def UINT_MAX : Int := 4294967295

/-- The value is representable in a 64-bit `long`. -/
def isLong (x : Int) : Prop := LONG_MIN ≤ x ∧ x ≤ LONG_MAX

instance (x : Int) : Decidable (isLong x) := by
  unfold isLong; exact inferInstance

/-- Reduction of a mathematical integer to the 64-bit two's-complement range. -/
def wrapLong (x : Int) : Int :=
  (x + 9223372036854775808) % 18446744073709551616 - 9223372036854775808

/-! ## `struct hg_time` (mercury_time.h, lines 27-32) -/

/-- Mirror of `struct hg_time { long tv_sec; long tv_usec; }`. -/
structure hg_time where
  tv_sec : Int
  tv_usec : Int
deriving DecidableEq, Repr

/-- Both fields are values of type `long`. -/
def hg_time.wf (t : hg_time) : Prop := isLong t.tv_sec ∧ isLong t.tv_usec

instance (t : hg_time) : Decidable t.wf := by
  unfold hg_time.wf; exact inferInstance

/-- A normalised time value: seconds and microseconds non-negative,
microseconds strictly below one million. -/
def hg_time.normalised (t : hg_time) : Prop :=
  0 ≤ t.tv_sec ∧ 0 ≤ t.tv_usec ∧ t.tv_usec < 1000000

instance (t : hg_time) : Decidable t.normalised := by
  unfold hg_time.normalised; exact inferInstance

/-- Total number of microseconds a time value stands for. -/
def hg_time.total (t : hg_time) : Int := t.tv_sec * 1000000 + t.tv_usec

/-! ## Ordering, addition, subtraction (mercury_time.h, lines 262-299) -/

/-- Source: `hg_time_less`. The C expression
`(in1.tv_sec < in2.tv_sec) || ((in1.tv_sec == in2.tv_sec) && (in1.tv_usec < in2.tv_usec))`
as an `int`. -/
def hg_time_less (in1 in2 : hg_time) : Int :=
  if in1.tv_sec < in2.tv_sec ∨
      (in1.tv_sec = in2.tv_sec ∧ in1.tv_usec < in2.tv_usec) then 1 else 0

/-- Source: `hg_time_add`. The carry test is `out.tv_usec > 1000000`, as in the
source. -/
def hg_time_add (in1 in2 : hg_time) : hg_time :=
  let sec := wrapLong (in1.tv_sec + in2.tv_sec)
  let usec := wrapLong (in1.tv_usec + in2.tv_usec)
  if usec > 1000000 then
    { tv_sec := wrapLong (sec + 1), tv_usec := wrapLong (usec - 1000000) }
  else
    { tv_sec := sec, tv_usec := usec }

/-- Source: `hg_time_subtract`. The borrow test is `out.tv_usec < 0`. -/
def hg_time_subtract (in1 in2 : hg_time) : hg_time :=
  let sec := wrapLong (in1.tv_sec - in2.tv_sec)
  let usec := wrapLong (in1.tv_usec - in2.tv_usec)
  if usec < 0 then
    { tv_sec := wrapLong (sec - 1), tv_usec := wrapLong (usec + 1000000) }
  else
    { tv_sec := sec, tv_usec := usec }

/-- No operation executed by `hg_time_add in1 in2` leaves the range of `long`:
the two sums, and the increment of the seconds when the carry branch runs. -/
def hg_time_add_no_overflow (in1 in2 : hg_time) : Prop :=
  isLong (in1.tv_sec + in2.tv_sec) ∧ isLong (in1.tv_usec + in2.tv_usec) ∧
    (in1.tv_usec + in2.tv_usec > 1000000 → isLong (in1.tv_sec + in2.tv_sec + 1))

instance (a b : hg_time) : Decidable (hg_time_add_no_overflow a b) := by
  unfold hg_time_add_no_overflow; exact inferInstance

/-! ## Timed condition wait (mercury_thread_condition.h, lines 178-217) -/

/-- Mirror of the C library `struct timespec { time_t tv_sec; long tv_nsec; }`. -/
structure timespec where
  tv_sec : Int
  tv_nsec : Int
deriving DecidableEq, Repr

/-- Total number of nanoseconds a `timespec` stands for. -/
def timespec.total (t : timespec) : Int := t.tv_sec * 1000000000 + t.tv_nsec

/-- Mirror of the C library `ldiv_t`. -/
structure ldiv_t where
  quot : Int
  rem : Int
deriving DecidableEq, Repr

/-- The C library function `ldiv`: quotient and remainder of the division
truncated toward zero. -/
def ldiv (numer denom : Int) : ldiv_t :=
  { quot := wrapLong (Int.tdiv numer denom), rem := Int.tmod numer denom }

/-- The status codes `HG_UTIL_SUCCESS` and `HG_UTIL_FAIL` come from
`mercury_util_config.h`, which is not among the sources; they are parameters
of the embedding. -/
structure util_config where
  HG_UTIL_SUCCESS : Int
  HG_UTIL_FAIL : Int
deriving DecidableEq, Repr

/-- What the doc comments of the source say of every status: "Non-negative on
success or negative on failure". -/
def util_config.wf (cfg : util_config) : Prop :=
  0 ≤ cfg.HG_UTIL_SUCCESS ∧ cfg.HG_UTIL_FAIL < 0

instance (cfg : util_config) : Decidable cfg.wf := by
  unfold util_config.wf; exact inferInstance

/-- Which clock `hg_thread_cond_timedwait` reads: `hg_time_get_current` when
`HG_UTIL_HAS_PTHREAD_CONDATTR_SETCLOCK` is defined, else `gettimeofday`. -/
inductive clock_source where
  | hg_time_get_current
  | gettimeofday
deriving DecidableEq, Repr

/-- The source's test that the clock read succeeded:
`hg_time_get_current(&now) != HG_UTIL_SUCCESS` resp. `gettimeofday(&now, NULL) != 0`
is false. -/
def clock_read_ok (cfg : util_config) (src : clock_source) (status : Int) : Prop :=
  match src with
  | clock_source.hg_time_get_current => status = cfg.HG_UTIL_SUCCESS
  | clock_source.gettimeofday => status = 0

instance (cfg : util_config) (src : clock_source) (status : Int) :
    Decidable (clock_read_ok cfg src status) := by
  unfold clock_read_ok; cases src <;> exact inferInstance

/-- Calls to the operating system made by `hg_thread_cond_timedwait`, in order. -/
inductive os_call where
  | clock_read
  | pthread_cond_timedwait (abs_timeout : timespec)
deriving DecidableEq, Repr

/-- The deadline computation of `hg_thread_cond_timedwait` (lines 205-209):
`abs_timeout_us = now.tv_usec + timeout * 1000L; ld = ldiv(abs_timeout_us, 1000000L);
abs_timeout.tv_sec = now.tv_sec + ld.quot; abs_timeout.tv_nsec = ld.rem * 1000L`.
`timeout` is the value of the `unsigned int` argument, converted to `long`
for the product. -/
def abs_timeout_of (now : hg_time) (timeout : Int) : timespec :=
  let abs_timeout_us := wrapLong (now.tv_usec + wrapLong (timeout * 1000))
  let ld := ldiv abs_timeout_us 1000000
  { tv_sec := wrapLong (now.tv_sec + ld.quot), tv_nsec := wrapLong (ld.rem * 1000) }

/-- Source: `hg_thread_cond_timedwait`, POSIX branch. `clock` is the status and
the value written by the clock read, `pthread_cond_timedwait` the result of
the wait primitive for a given deadline. Returns the status and the calls made. -/
def hg_thread_cond_timedwait (cfg : util_config) (src : clock_source)
    (clock : Int × hg_time) (pthread_cond_timedwait : timespec → Int)
    (timeout : Int) : Int × List os_call :=
  if ¬ clock_read_ok cfg src clock.1 then
    (cfg.HG_UTIL_FAIL, [os_call.clock_read])
  else
    let abs_timeout := abs_timeout_of clock.2 timeout
    let pret := pthread_cond_timedwait abs_timeout
    (if pret ≠ 0 then cfg.HG_UTIL_FAIL else cfg.HG_UTIL_SUCCESS,
      [os_call.clock_read, os_call.pthread_cond_timedwait abs_timeout])

/-! ## Reading the clock (mercury_time.h, lines 189-201) -/

/-- Source: `hg_time_get_current_clock_gettime`. `tp` is the reading stored by
`clock_gettime(CLOCK_MONOTONIC, &tp)`, whose own status the source ignores. -/
def hg_time_get_current_clock_gettime (cfg : util_config) (tp : timespec) :
    Int × hg_time :=
  (cfg.HG_UTIL_SUCCESS, { tv_sec := tp.tv_sec, tv_usec := Int.tdiv tp.tv_nsec 1000 })

/-- A clock reading: a pair of seconds and nanoseconds, the nanoseconds in
`[0, 1000000000)`. -/
def timespec.reading (tp : timespec) : Prop :=
  0 ≤ tp.tv_nsec ∧ tp.tv_nsec < 1000000000

instance (tp : timespec) : Decidable tp.reading := by
  unfold timespec.reading; exact inferInstance

/-! ## Conversion from seconds (mercury_time.h, lines 250-259) -/

/-- A finite IEEE 754 binary64 value, `m * 2 ^ e` with integers `m` and `e`.
Infinities and NaN are not modelled. -/
structure double where
  m : Int
  e : Int
deriving DecidableEq, Repr

/-- The number a `double` stands for. -/
def double.toRat (x : double) : ℚ := (x.m : ℚ) * (2 : ℚ) ^ x.e

/-- The pair is a binary64 value: a significand of at most 53 bits and an
exponent between that of the subnormals and that of the largest values. -/
def double.finite (x : double) : Prop :=
  -9007199254740992 < x.m ∧ x.m < 9007199254740992 ∧ -1074 ≤ x.e ∧ x.e ≤ 971

instance (x : double) : Decidable x.finite := by
  unfold double.finite; exact inferInstance

/-- Number of binary digits of `n`, counted by halving at most `fuel` times. -/
def bit_length_aux : Nat → Nat → Nat
  | 0, _ => 0
  | fuel + 1, n => if n = 0 then 0 else bit_length_aux fuel (n / 2) + 1

/-- Number of binary digits of `n` (`0` for `0`). -/
def bit_length (n : Nat) : Nat := bit_length_aux n n

/-- The integer nearest to `m / 2 ^ k`, ties going to the even one: the
rounding of the default IEEE 754 mode. -/
def round_shift (m : Int) (k : Nat) : Int :=
  let q := m / 2 ^ k
  let r := m % 2 ^ k
  if 2 * r < 2 ^ k then q
  else if 2 ^ k < 2 * r then q + 1
  else if q % 2 = 0 then q else q + 1

/-- Rounding of the exact value `m * 2 ^ e` to binary64: the significand is cut
to 53 bits, and to the grid `2 ^ (-1074)` of the subnormals, by `round_shift`.
Overflow to infinity is not modelled. -/
def double.round (m e : Int) : double :=
  let k := max (bit_length m.natAbs - 53) (-1074 - e).toNat
  { m := round_shift m k, e := e + k }

/-- The C conversion `(double) n` of a `long`. -/
def double.of_long (n : Int) : double := double.round n 0

/-- The binary64 subtraction `x - y`: the exact difference, rounded. -/
def double.sub (x y : double) : double :=
  let e := min x.e y.e
  double.round (x.m * 2 ^ (x.e - e).toNat - y.m * 2 ^ (y.e - e).toNat) e

/-- The binary64 multiplication `x * y`: the exact product, rounded. -/
def double.mul (x y : double) : double := double.round (x.m * y.m) (x.e + y.e)

/-- The C conversion `(long) d` of a `double` whose value is in the range of
`long`: the fractional part is discarded (truncation toward zero). -/
def long_of_double (x : double) : Int :=
  if 0 ≤ x.e then x.m * 2 ^ x.e.toNat else Int.tdiv x.m (2 ^ (-x.e).toNat)

/-- Source: `hg_time_from_double`, every operation in binary64:
`tv.tv_sec = (long) d; tv.tv_usec = (long) ((d - (double) (tv.tv_sec)) * 1000000)`. -/
def hg_time_from_double (d : double) : hg_time :=
  let sec := long_of_double d
  { tv_sec := sec,
    tv_usec := long_of_double
      (double.mul (double.sub d (double.of_long sec)) ⟨1000000, 0⟩) }

/-! ## Sleeping (mercury_time.h, lines 302-330, POSIX branch) -/

/-- Source: `hg_time_sleep`, the branch without `_WIN32`. `rmt` is `none` for a
null pointer and `some v` for a pointer to a structure holding `v`;
`nanosleep` gives, for the request, its return code and the content of
`rmtp` after the call. Returns the status and the final content behind `rmt`. -/
def hg_time_sleep (cfg : util_config) (rqt : hg_time) (rmt : Option hg_time)
    (nanosleep : timespec → Int × timespec) : Int × Option hg_time :=
  let rqtp : timespec :=
    { tv_sec := rqt.tv_sec, tv_nsec := wrapLong (rqt.tv_usec * 1000) }
  let res := nanosleep rqtp
  let rmtp := res.2
  if res.1 ≠ 0 then
    (cfg.HG_UTIL_FAIL, rmt)
  else
    match rmt with
    | some _ =>
      (cfg.HG_UTIL_SUCCESS,
        some { tv_sec := rmtp.tv_sec, tv_usec := Int.tdiv rmtp.tv_nsec 1000 })
    | none => (cfg.HG_UTIL_SUCCESS, none)

/-! ## Sleeping, `_WIN32` branch (mercury_time.h, lines 243-247 and 307-310) -/

/-- Source: `hg_time_to_double`, with `double` read as exact rationals:
`(double) tv.tv_sec + (double) (tv.tv_usec) * 0.000001`. -/
def hg_time_to_double (tv : hg_time) : ℚ :=
  (tv.tv_sec : ℚ) + (tv.tv_usec : ℚ) * (1 / 1000000)

/-- The C conversion `(DWORD) d` of a floating value to a 32-bit unsigned
integer, the value being an exact rational here: truncation toward zero. -/
def dword_of_double (d : ℚ) : Int := Int.tdiv d.num (d.den : Int) % 4294967296

/-- Source: `hg_time_sleep`, the `_WIN32` branch:
`DWORD dwMilliseconds = (DWORD) (hg_time_to_double(rqt) / 1000); Sleep(dwMilliseconds);`.
Returns the status and the argument handed to `Sleep`. -/
def hg_time_sleep_win32 (cfg : util_config) (rqt : hg_time) : Int × Int :=
  let dwMilliseconds := dword_of_double (hg_time_to_double rqt / 1000)
  (cfg.HG_UTIL_SUCCESS, dwMilliseconds)

/-! ## Reading the clock, Mach branch (mercury_time.h, lines 205-223) -/

/-- Reduction of a mathematical integer to the range of `uint64_t`. -/
def wrapU64 (x : Int) : Int := x % 18446744073709551616

/-- Mirror of `mach_timebase_info_data_t { uint32_t numer; uint32_t denom; }`. -/
structure mach_timebase_info_data_t where
  numer : Int
  denom : Int
deriving DecidableEq, Repr

/-- Source: `hg_time_get_current_mach`. `monotonic_timebase_factor` is the
value of the function's static variable at entry, `timebase_info` what
`mach_timebase_info` stores and `mach_absolute_time` the tick count read.
Returns the status, the time value and the static variable at exit. The
microseconds are computed as in the source:
`(long) ((monotonic_nsec - (uint64_t) tv->tv_sec) / 1000)`. -/
def hg_time_get_current_mach (cfg : util_config) (monotonic_timebase_factor : Int)
    (timebase_info : mach_timebase_info_data_t) (mach_absolute_time : Int) :
    Int × hg_time × Int :=
  let factor :=
    if monotonic_timebase_factor = 0 then
      Int.tdiv timebase_info.numer timebase_info.denom
    else monotonic_timebase_factor
  let monotonic_nsec := wrapU64 (mach_absolute_time * factor)
  let tv_sec := wrapLong (Int.tdiv monotonic_nsec 1000000000)
  let tv_usec := wrapLong (Int.tdiv (wrapU64 (monotonic_nsec - wrapU64 tv_sec)) 1000)
  (cfg.HG_UTIL_SUCCESS, { tv_sec := tv_sec, tv_usec := tv_usec }, factor)

/-! ## Bulk segment test server (Testing/server_bulk_seg.c) -/

/-- Largest value of a 64-bit `size_t`. -/
def SIZE_MAX : Int := 18446744073709551615

/-- Reduction of a mathematical integer to the range of a 64-bit `size_t`. -/
def wrapSize (x : Int) : Int := x % 18446744073709551616

/-- Conversion of an integer value to a 32-bit `int`. -/
def wrapInt (x : Int) : Int := (x + 2147483648) % 4294967296 - 2147483648

/-- The checking loop of `bla_write` (lines 37-44) with `remaining` iterations
to go at index `i`: the value of `error` when the loop is left, by `break` at
the first `bulk_buf[i] != (int) i` or at the end. -/
def bla_write_check (bulk_buf : Int → Int) : Nat → Int → Int → Int
  | 0, _, error => error
  | remaining + 1, i, error =>
    if bulk_buf i ≠ wrapInt i then 1
    else bla_write_check bulk_buf remaining (i + 1) error

/-- Source: `bla_write`, with `sizeof(int) = 4`. `bulk_buf` gives the `int` at
each index of the buffer. Returns the value returned, the file descriptor
printed and the final `error` flag, which only selects the messages printed. -/
def bla_write (fildes : Int) (bulk_buf : Int → Int) (nbyte : Int) : Int × Int × Int :=
  let error := if nbyte = 0 then 1 else 0
  let error := bla_write_check bulk_buf (nbyte / 4).toNat 0 error
  (nbyte, fildes, error)

/-- Results of the runtime calls made by `fs_bla_write`, one field per call
site: the statuses, the `fildes` of the decoded input, the size of its bulk
handle, and the `int`s found in the local block when `bla_write` runs. -/
structure bla_runtime where
  HG_Handler_get_input : Int
  fildes : Int
  HG_Bulk_handle_get_size : Int
  HG_Bulk_read1 : Int
  HG_Bulk_read2 : Int
  HG_Bulk_wait1 : Int
  HG_Bulk_wait2 : Int
  block : Int → Int
  HG_Handler_start_output : Int
  HG_Bulk_handle_free : Int

/-- Calls made by `fs_bla_write`, with the arguments that matter:
`HG_Bulk_read` carries the remote (bulk) offset, the local (block) offset and
the length; `HG_Bulk_wait` the number of the request waited for;
`HG_Handler_get_input` the status it returned; `HG_Handler_start_output` the
`ret` field of the output record. -/
inductive hg_call where
  | HG_Handler_get_addr
  | HG_Handler_get_input (status : Int)
  | HG_Bulk_handle_get_size
  | malloc (size : Int)
  | HG_Bulk_handle_create (size : Int)
  | HG_Bulk_read (bulk_offset block_offset size : Int)
  | HG_Bulk_wait (request : Nat)
  | HG_Handler_start_output (ret : Int)
  | HG_Bulk_handle_free
  | free
deriving DecidableEq, Repr

/-- Source: `fs_bla_write`. `HG_SUCCESS` comes from a header that is not among
the sources and is a parameter. Returns the status and the calls made, in
order. -/
def fs_bla_write (HG_SUCCESS : Int) (rt : bla_runtime) : Int × List hg_call :=
  let t0 := [hg_call.HG_Handler_get_addr,
    hg_call.HG_Handler_get_input rt.HG_Handler_get_input]
  if rt.HG_Handler_get_input ≠ HG_SUCCESS then (rt.HG_Handler_get_input, t0) else
  let bla_write_nbytes := rt.HG_Bulk_handle_get_size
  let t1 := t0 ++ [hg_call.HG_Bulk_handle_get_size, hg_call.malloc bla_write_nbytes,
    hg_call.HG_Bulk_handle_create bla_write_nbytes]
  let bla_write_nbytes_read := wrapSize (bla_write_nbytes / 2 + 16)
  let t2 := t1 ++ [hg_call.HG_Bulk_read 0 0 bla_write_nbytes_read]
  if rt.HG_Bulk_read1 ≠ HG_SUCCESS then (rt.HG_Bulk_read1, t2) else
  let bla_write_offset := wrapLong bla_write_nbytes_read
  let bla_write_nbytes_read := wrapSize (bla_write_nbytes - bla_write_nbytes_read)
  let t3 := t2 ++ [hg_call.HG_Bulk_read bla_write_offset bla_write_offset
    bla_write_nbytes_read]
  if rt.HG_Bulk_read2 ≠ HG_SUCCESS then (rt.HG_Bulk_read2, t3) else
  let t4 := t3 ++ [hg_call.HG_Bulk_wait 1]
  if rt.HG_Bulk_wait1 ≠ HG_SUCCESS then (rt.HG_Bulk_wait1, t4) else
  let t5 := t4 ++ [hg_call.HG_Bulk_wait 2]
  if rt.HG_Bulk_wait2 ≠ HG_SUCCESS then (rt.HG_Bulk_wait2, t5) else
  let bla_write_ret := wrapInt (bla_write rt.fildes rt.block bla_write_nbytes).1
  let t6 := t5 ++ [hg_call.HG_Handler_start_output bla_write_ret]
  if rt.HG_Handler_start_output ≠ HG_SUCCESS then (rt.HG_Handler_start_output, t6) else
  let t7 := t6 ++ [hg_call.HG_Bulk_handle_free]
  if rt.HG_Bulk_handle_free ≠ HG_SUCCESS then (rt.HG_Bulk_handle_free, t7) else
  (rt.HG_Bulk_handle_free, t7 ++ [hg_call.free])

/-- The bulk reads among the calls: remote offset, local offset, length. -/
def bulk_reads : List hg_call → List (Int × Int × Int)
  | [] => []
  | hg_call.HG_Bulk_read bulk_offset block_offset size :: t =>
    (bulk_offset, block_offset, size) :: bulk_reads t
  | _ :: t => bulk_reads t

/-- Modelled from the spec: the effect of a bulk read that completed with
SUCCESS (`HG_Bulk_read` and `HG_Bulk_wait` are not among the sources). "When
`wait` returns SUCCESS, the destination bytes in `[dst_off, dst_off+L)` equal
the source bytes in `[src_off, src_off+L)`"; the other bytes of the local
block keep their value. -/
def bulk_read_effect (remote : Int → Int) (loc : Int → Int) (r : Int × Int × Int) :
    Int → Int :=
  fun i =>
    if r.2.1 ≤ i ∧ i < r.2.1 + r.2.2 then remote (r.1 + (i - r.2.1)) else loc i

/-- The local block after the given reads completed, in the given order. -/
def bulk_reads_effect (remote : Int → Int) (loc : Int → Int)
    (rs : List (Int × Int × Int)) : Int → Int :=
  rs.foldl (bulk_read_effect remote) loc

/-- The statuses of the calls that `fs_bla_write` checks, in call order. -/
def bla_runtime.statuses (rt : bla_runtime) : List Int :=
  [rt.HG_Handler_get_input, rt.HG_Bulk_read1, rt.HG_Bulk_read2, rt.HG_Bulk_wait1,
    rt.HG_Bulk_wait2, rt.HG_Handler_start_output, rt.HG_Bulk_handle_free]

/-- The calls whose status `fs_bla_write` checks. -/
inductive checked_call where
  | HG_Handler_get_input
  | HG_Bulk_read
  | HG_Bulk_wait
  | HG_Handler_start_output
  | HG_Bulk_handle_free
deriving DecidableEq, Repr

/-- Which checked call, if any, a call of the trace is. -/
def hg_call.checked : hg_call → Option checked_call
  | hg_call.HG_Handler_get_input _ => some checked_call.HG_Handler_get_input
  | hg_call.HG_Bulk_read _ _ _ => some checked_call.HG_Bulk_read
  | hg_call.HG_Bulk_wait _ => some checked_call.HG_Bulk_wait
  | hg_call.HG_Handler_start_output _ => some checked_call.HG_Handler_start_output
  | hg_call.HG_Bulk_handle_free => some checked_call.HG_Bulk_handle_free
  | _ => none

/-- The checked calls of a complete run of `fs_bla_write`, in order. -/
def checked_sequence : List checked_call :=
  [checked_call.HG_Handler_get_input, checked_call.HG_Bulk_read,
    checked_call.HG_Bulk_read, checked_call.HG_Bulk_wait, checked_call.HG_Bulk_wait,
    checked_call.HG_Handler_start_output, checked_call.HG_Bulk_handle_free]

/-- The output records handed to `HG_Handler_start_output` among the calls. -/
def start_outputs : List hg_call → List Int
  | [] => []
  | hg_call.HG_Handler_start_output ret :: t => ret :: start_outputs t
  | _ :: t => start_outputs t

/-- The scenario of the split-transfer test: a bulk handle of 2048 bytes whose
`int`s are `0, 1, 2, ...`, every runtime call returning `0`. -/
def bla_runtime.split_2048 : bla_runtime :=
  { HG_Handler_get_input := 0, fildes := 3, HG_Bulk_handle_get_size := 2048,
    HG_Bulk_read1 := 0, HG_Bulk_read2 := 0, HG_Bulk_wait1 := 0, HG_Bulk_wait2 := 0,
    block := fun i => i, HG_Handler_start_output := 0, HG_Bulk_handle_free := 0 }

/-! ## POSIX test server (test/server_posix.c) -/

/-- Results of the runtime and system calls made by the handlers of
`server_posix.c`: the statuses of the checked calls, the decoded input
fields, the size of the bulk handle and the result of the system call
(`open`, `close`, `write` or `read`). -/
structure fs_runtime where
  fs_handler_get_input : Int
  fd : Int
  flags : Int
  mode : Int
  bds_handle_get_size : Int
  sys_ret : Int
  bds_transfer : Int
  bds_wait : Int
  fs_handler_complete : Int
  bds_block_handle_free : Int
deriving DecidableEq, Repr

/-- Calls made by the handlers of `server_posix.c`. `fs_handler_get_input`
carries the status it returned, `fs_handler_complete` the `ret` field of the
output record (`none` for a null record). -/
inductive fs_call where
  | fs_handler_get_addr
  | fs_handler_get_input (status : Int)
  | fs_handler_complete (ret : Option Int)
  | sys_open (flags mode : Int)
  | sys_close (fd : Int)
  | sys_write (fd count : Int)
  | sys_read (fd count : Int)
  | bds_handle_get_size
  | malloc (size : Int)
  | bds_block_handle_create (size : Int)
  | bds_read
  | bds_write
  | bds_wait
  | bds_block_handle_free
  | free
deriving DecidableEq, Repr

/-- Source: `server_finalize`. `S_SUCCESS` comes from a header that is not
among the sources and is a parameter; `finalizing` is the global counter
(an `unsigned int`). Returns the status, the counter and the calls made. -/
def server_finalize (S_SUCCESS : Int) (rt : fs_runtime) (finalizing : Int) :
    Int × Int × List fs_call :=
  let t0 := [fs_call.fs_handler_get_input rt.fs_handler_get_input]
  if rt.fs_handler_get_input ≠ S_SUCCESS then
    (rt.fs_handler_get_input, finalizing, t0) else
  let finalizing := (finalizing + 1) % 4294967296
  let t1 := t0 ++ [fs_call.fs_handler_complete none]
  if rt.fs_handler_complete ≠ S_SUCCESS then
    (rt.fs_handler_complete, finalizing, t1) else
  (rt.fs_handler_complete, finalizing, t1)

/-- Source: `server_posix_open`. Returns the status and the calls made. -/
def server_posix_open (S_SUCCESS : Int) (rt : fs_runtime) : Int × List fs_call :=
  let t0 := [fs_call.fs_handler_get_input rt.fs_handler_get_input]
  if rt.fs_handler_get_input ≠ S_SUCCESS then (rt.fs_handler_get_input, t0) else
  let ret := rt.sys_ret
  let t1 := t0 ++ [fs_call.sys_open rt.flags rt.mode, fs_call.fs_handler_complete (some ret)]
  if rt.fs_handler_complete ≠ S_SUCCESS then (rt.fs_handler_complete, t1) else
  (rt.fs_handler_complete, t1)

/-- Source: `server_posix_close`. Returns the status and the calls made. -/
def server_posix_close (S_SUCCESS : Int) (rt : fs_runtime) : Int × List fs_call :=
  let t0 := [fs_call.fs_handler_get_input rt.fs_handler_get_input]
  if rt.fs_handler_get_input ≠ S_SUCCESS then (rt.fs_handler_get_input, t0) else
  let ret := rt.sys_ret
  let t1 := t0 ++ [fs_call.sys_close rt.fd, fs_call.fs_handler_complete (some ret)]
  if rt.fs_handler_complete ≠ S_SUCCESS then (rt.fs_handler_complete, t1) else
  (rt.fs_handler_complete, t1)

/-- Source: `server_posix_write`. The debugging loop over the buffer only
prints and is left out. Returns the status and the calls made. -/
def server_posix_write (S_SUCCESS : Int) (rt : fs_runtime) : Int × List fs_call :=
  let t0 := [fs_call.fs_handler_get_addr,
    fs_call.fs_handler_get_input rt.fs_handler_get_input]
  if rt.fs_handler_get_input ≠ S_SUCCESS then (rt.fs_handler_get_input, t0) else
  let count := rt.bds_handle_get_size
  let t1 := t0 ++ [fs_call.bds_handle_get_size, fs_call.malloc count,
    fs_call.bds_block_handle_create count, fs_call.bds_read]
  if rt.bds_transfer ≠ S_SUCCESS then (rt.bds_transfer, t1) else
  let t2 := t1 ++ [fs_call.bds_wait]
  if rt.bds_wait ≠ S_SUCCESS then (rt.bds_wait, t2) else
  let ret := rt.sys_ret
  let t3 := t2 ++ [fs_call.sys_write rt.fd count, fs_call.fs_handler_complete (some ret)]
  if rt.fs_handler_complete ≠ S_SUCCESS then (rt.fs_handler_complete, t3) else
  let t4 := t3 ++ [fs_call.bds_block_handle_free]
  if rt.bds_block_handle_free ≠ S_SUCCESS then (rt.bds_block_handle_free, t4) else
  (rt.bds_block_handle_free, t4 ++ [fs_call.free])

/-- Source: `server_posix_read`. The debugging loop over the buffer only
prints and is left out. Returns the status and the calls made. -/
def server_posix_read (S_SUCCESS : Int) (rt : fs_runtime) : Int × List fs_call :=
  let t0 := [fs_call.fs_handler_get_addr,
    fs_call.fs_handler_get_input rt.fs_handler_get_input]
  if rt.fs_handler_get_input ≠ S_SUCCESS then (rt.fs_handler_get_input, t0) else
  let count := rt.bds_handle_get_size
  let ret := rt.sys_ret
  let t1 := t0 ++ [fs_call.bds_handle_get_size, fs_call.malloc count,
    fs_call.sys_read rt.fd count, fs_call.bds_block_handle_create ret, fs_call.bds_write]
  if rt.bds_transfer ≠ S_SUCCESS then (rt.bds_transfer, t1) else
  let t2 := t1 ++ [fs_call.bds_wait]
  if rt.bds_wait ≠ S_SUCCESS then (rt.bds_wait, t2) else
  let t3 := t2 ++ [fs_call.fs_handler_complete (some ret)]
  if rt.fs_handler_complete ≠ S_SUCCESS then (rt.fs_handler_complete, t3) else
  let t4 := t3 ++ [fs_call.bds_block_handle_free]
  if rt.bds_block_handle_free ≠ S_SUCCESS then (rt.bds_block_handle_free, t4) else
  (rt.bds_block_handle_free, t4 ++ [fs_call.free])

/-! ## Calls on the RPC handle -/

/-- A call that takes the RPC handle: reading the peer address, decoding the
input (successfully or not), completing (`fs_handler_complete`,
`HG_Handler_start_output`). -/
inductive handle_op where
  | get_addr
  | get_input (ok : Bool)
  | complete
deriving DecidableEq, Repr

/-- The call decodes the input. -/
def handle_op.is_get_input : handle_op → Bool
  | handle_op.get_input _ => true
  | _ => false

/-- The call on the handle, if any, that a call of `server_posix.c` is. -/
def fs_call.handle_op (S_SUCCESS : Int) : fs_call → Option handle_op
  | fs_call.fs_handler_get_addr => some handle_op.get_addr
  | fs_call.fs_handler_get_input status =>
    some (handle_op.get_input (decide (status = S_SUCCESS)))
  | fs_call.fs_handler_complete _ => some handle_op.complete
  | _ => none

/-- The call on the handle, if any, that a call of `fs_bla_write` is. -/
def hg_call.handle_op (HG_SUCCESS : Int) : hg_call → Option handle_op
  | hg_call.HG_Handler_get_addr => some handle_op.get_addr
  | hg_call.HG_Handler_get_input status =>
    some (handle_op.get_input (decide (status = HG_SUCCESS)))
  | hg_call.HG_Handler_start_output _ => some handle_op.complete
  | _ => none

/-- At-most-once completion of a sequence of calls on one handle: at most one
completion; wherever a completion stands, no call on the handle follows it
and the calls before it contain exactly one input decoding, a successful one. -/
def completes_at_most_once (l : List handle_op) : Prop :=
  l.count handle_op.complete ≤ 1 ∧
    ∀ pre post : List handle_op, l = pre ++ handle_op.complete :: post →
      post = [] ∧ pre.filter handle_op.is_get_input = [handle_op.get_input true]

/-- Executable test for `completes_at_most_once`: cut the sequence at its
first completion. -/
def completes_at_most_once_check (l : List handle_op) : Bool :=
  let pre := l.takeWhile (fun c => decide (c ≠ handle_op.complete))
  let rest := l.dropWhile (fun c => decide (c ≠ handle_op.complete))
  decide (rest = []) ||
    (decide (rest = [handle_op.complete]) &&
      decide (pre.filter handle_op.is_get_input = [handle_op.get_input true]))

/-! ## Basic facts used throughout -/

theorem wrapLong_of_isLong {x : Int} (h : isLong x) : wrapLong x = x := by
  unfold isLong LONG_MIN LONG_MAX at h
  unfold wrapLong
  omega

theorem hg_time_eq_iff (a b : hg_time) :
    a = b ↔ a.tv_sec = b.tv_sec ∧ a.tv_usec = b.tv_usec := by
  cases a; cases b; simp

/-! ## Time arithmetic -/

/-- C1: at the normalised inputs `(0, 500000)` and `(0, 500000)` the carry test
`> 1000000` of `hg_time_add` does not fire and the result is `(0, 1000000)`,
which is not a normalised time value. -/
theorem hg_time_add_half_seconds_not_normalised :
    (hg_time.mk 0 500000).normalised ∧ (hg_time.mk 0 500000).wf ∧
      hg_time_add_no_overflow ⟨0, 500000⟩ ⟨0, 500000⟩ ∧
      hg_time_add ⟨0, 500000⟩ ⟨0, 500000⟩ = ⟨0, 1000000⟩ ∧
      ¬ (hg_time_add ⟨0, 500000⟩ ⟨0, 500000⟩).normalised := by
  decide

/-- C2, as stated, fails: `(0, 0)` is less than `(1, 0)`, both normalised, and
`hg_time_subtract` returns `(-1, 0)`, not the zero value. -/
theorem hg_time_subtract_larger_not_zero :
    (hg_time.mk 0 0).normalised ∧ (hg_time.mk 1 0).normalised ∧
      hg_time_less ⟨0, 0⟩ ⟨1, 0⟩ = 1 ∧
      hg_time_subtract ⟨0, 0⟩ ⟨1, 0⟩ = ⟨-1, 0⟩ ∧
      hg_time_subtract ⟨0, 0⟩ ⟨1, 0⟩ ≠ ⟨0, 0⟩ := by
  decide

/-- C2, amended: for normalised `a` and `b` with `hg_time_less a b = 1`,
`hg_time_subtract a b` is the signed difference: its seconds are negative, its
microseconds lie in `[0, 1000000)` and its total is `total a - total b`; in
particular it is never the zero value. -/
theorem hg_time_subtract_larger_signed (a b : hg_time)
    (wa : a.wf) (wb : b.wf) (na : a.normalised) (nb : b.normalised)
    (hlt : hg_time_less a b = 1) :
    (hg_time_subtract a b).tv_sec < 0 ∧
      0 ≤ (hg_time_subtract a b).tv_usec ∧
      (hg_time_subtract a b).tv_usec < 1000000 ∧
      (hg_time_subtract a b).total = a.total - b.total ∧
      hg_time_subtract a b ≠ ⟨0, 0⟩ := by
  obtain ⟨as, au⟩ := a
  obtain ⟨bs, bu⟩ := b
  simp only [hg_time.wf, isLong, LONG_MIN, LONG_MAX, hg_time.normalised] at wa wb na nb
  simp only [hg_time_less] at hlt
  split_ifs at hlt with hc
  · simp only [hg_time_subtract, wrapLong, hg_time.total, ne_eq, hg_time_eq_iff]
    split_ifs <;> simp only [] <;> omega
  · omega

theorem hg_time_subtract_larger_signed_witness :
    (hg_time_subtract ⟨2, 100⟩ ⟨3, 700⟩).tv_sec < 0 ∧
      0 ≤ (hg_time_subtract ⟨2, 100⟩ ⟨3, 700⟩).tv_usec ∧
      (hg_time_subtract ⟨2, 100⟩ ⟨3, 700⟩).tv_usec < 1000000 ∧
      (hg_time_subtract ⟨2, 100⟩ ⟨3, 700⟩).total =
        (hg_time.mk 2 100).total - (hg_time.mk 3 700).total ∧
      hg_time_subtract ⟨2, 100⟩ ⟨3, 700⟩ ≠ ⟨0, 0⟩ :=
  hg_time_subtract_larger_signed ⟨2, 100⟩ ⟨3, 700⟩
    (by decide) (by decide) (by decide) (by decide) (by decide)

/-- Without overflow `hg_time_add` computes on mathematical integers. -/
theorem hg_time_add_eq (a b : hg_time) (h : hg_time_add_no_overflow a b) :
    hg_time_add a b =
      if a.tv_usec + b.tv_usec > 1000000 then
        ⟨a.tv_sec + b.tv_sec + 1, a.tv_usec + b.tv_usec - 1000000⟩
      else ⟨a.tv_sec + b.tv_sec, a.tv_usec + b.tv_usec⟩ := by
  obtain ⟨hs, hu, hc⟩ := h
  have e1 := wrapLong_of_isLong hs
  have e2 := wrapLong_of_isLong hu
  simp only [hg_time_add, e1, e2]
  split_ifs with hgt
  · have e3 := wrapLong_of_isLong (hc hgt)
    have e4 : wrapLong (a.tv_usec + b.tv_usec - 1000000) =
        a.tv_usec + b.tv_usec - 1000000 := by
      apply wrapLong_of_isLong
      unfold isLong LONG_MIN LONG_MAX at *
      omega
    rw [e3, e4]
  · rfl

/-- On normalised `long` pairs `hg_time_subtract` computes on mathematical
integers: none of its operations overflows. -/
theorem hg_time_subtract_eq (a b : hg_time)
    (wa : a.wf) (wb : b.wf) (na : a.normalised) (nb : b.normalised) :
    hg_time_subtract a b =
      if a.tv_usec - b.tv_usec < 0 then
        ⟨a.tv_sec - b.tv_sec - 1, a.tv_usec - b.tv_usec + 1000000⟩
      else ⟨a.tv_sec - b.tv_sec, a.tv_usec - b.tv_usec⟩ := by
  unfold hg_time.wf isLong LONG_MIN LONG_MAX at wa wb
  unfold hg_time.normalised at na nb
  have e1 : wrapLong (a.tv_sec - b.tv_sec) = a.tv_sec - b.tv_sec := by
    unfold wrapLong; omega
  have e2 : wrapLong (a.tv_usec - b.tv_usec) = a.tv_usec - b.tv_usec := by
    unfold wrapLong; omega
  have e3 : wrapLong (a.tv_sec - b.tv_sec - 1) = a.tv_sec - b.tv_sec - 1 := by
    unfold wrapLong; omega
  have e4 : wrapLong (a.tv_usec - b.tv_usec + 1000000) =
      a.tv_usec - b.tv_usec + 1000000 := by
    unfold wrapLong; omega
  simp only [hg_time_subtract, e1, e2, e3, e4]

/-- C3: for normalised `a` and `b` with `hg_time_less a b = 0` (`b` not later
than `a`), `hg_time_subtract a b` is a normalised `long` pair whose total is
`total a - total b`, and adding `b` back gives a value with the total of `a`. -/
theorem hg_time_subtract_not_larger (a b : hg_time)
    (wa : a.wf) (wb : b.wf) (na : a.normalised) (nb : b.normalised)
    (hge : hg_time_less a b = 0) :
    (hg_time_subtract a b).normalised ∧ (hg_time_subtract a b).wf ∧
      (hg_time_subtract a b).total = a.total - b.total ∧
      (hg_time_add (hg_time_subtract a b) b).total = a.total := by
  have hsub := hg_time_subtract_eq a b wa wb na nb
  obtain ⟨as, au⟩ := a
  obtain ⟨bs, bu⟩ := b
  simp only [hg_time.wf, isLong, LONG_MIN, LONG_MAX, hg_time.normalised] at wa wb na nb
  simp only [hg_time_less] at hge
  split_ifs at hge with hc
  · omega
  · have key : (hg_time_subtract ⟨as, au⟩ ⟨bs, bu⟩).normalised ∧
        (hg_time_subtract ⟨as, au⟩ ⟨bs, bu⟩).wf ∧
        (hg_time_subtract ⟨as, au⟩ ⟨bs, bu⟩).total =
          (hg_time.mk as au).total - (hg_time.mk bs bu).total := by
      rw [hsub]
      simp only [hg_time.wf, isLong, LONG_MIN, LONG_MAX, hg_time.normalised,
        hg_time.total]
      split_ifs <;> simp only [] <;> omega
    obtain ⟨k1, k2, k3⟩ := key
    refine ⟨k1, k2, k3, ?_⟩
    have hno : hg_time_add_no_overflow (hg_time_subtract ⟨as, au⟩ ⟨bs, bu⟩) ⟨bs, bu⟩ := by
      rw [hsub]
      simp only [hg_time_add_no_overflow, isLong, LONG_MIN, LONG_MAX]
      split_ifs <;> simp only [] <;> omega
    rw [hg_time_add_eq _ _ hno]
    simp only [hg_time.total] at k3 ⊢
    split_ifs <;> simp only [] <;> omega

theorem hg_time_subtract_not_larger_witness :
    (hg_time_subtract ⟨3, 100⟩ ⟨1, 700⟩).normalised ∧
      (hg_time_subtract ⟨3, 100⟩ ⟨1, 700⟩).wf ∧
      (hg_time_subtract ⟨3, 100⟩ ⟨1, 700⟩).total =
        (hg_time.mk 3 100).total - (hg_time.mk 1 700).total ∧
      (hg_time_add (hg_time_subtract ⟨3, 100⟩ ⟨1, 700⟩) ⟨1, 700⟩).total =
        (hg_time.mk 3 100).total :=
  hg_time_subtract_not_larger ⟨3, 100⟩ ⟨1, 700⟩
    (by decide) (by decide) (by decide) (by decide) (by decide)

/-- C4: when no operation of `hg_time_add a b` overflows a `long`, the result
stands for the sum: `total (hg_time_add a b) = total a + total b`. -/
theorem hg_time_add_total (a b : hg_time) (h : hg_time_add_no_overflow a b) :
    (hg_time_add a b).total = a.total + b.total := by
  rw [hg_time_add_eq a b h]
  simp only [hg_time.total]
  split_ifs <;> simp only [] <;> omega

theorem hg_time_add_total_witness :
    hg_time_add_no_overflow ⟨1, 999999⟩ ⟨2, 2⟩ ∧
      (hg_time_add ⟨1, 999999⟩ ⟨2, 2⟩).total =
        (hg_time.mk 1 999999).total + (hg_time.mk 2 2).total :=
  ⟨by decide, hg_time_add_total ⟨1, 999999⟩ ⟨2, 2⟩ (by decide)⟩

/-- C5: on normalised values `hg_time_less` returns `1` or `0`, returns `1`
exactly when the first total is smaller, is irreflexive and transitive, and
exactly one of `less a b`, `a = b`, `less b a` holds. -/
theorem hg_time_less_strict_total_order (a b c : hg_time)
    (na : a.normalised) (nb : b.normalised) (nc : c.normalised) :
    (hg_time_less a b = 1 ∨ hg_time_less a b = 0) ∧
      (hg_time_less a b = 1 ↔ a.total < b.total) ∧
      (hg_time_less a b = 0 ↔ ¬ a.total < b.total) ∧
      hg_time_less a a = 0 ∧
      (hg_time_less a b = 1 → hg_time_less b c = 1 → hg_time_less a c = 1) ∧
      ((hg_time_less a b = 1 ∧ a ≠ b ∧ hg_time_less b a ≠ 1) ∨
        (hg_time_less a b ≠ 1 ∧ a = b ∧ hg_time_less b a ≠ 1) ∨
        (hg_time_less a b ≠ 1 ∧ a ≠ b ∧ hg_time_less b a = 1)) := by
  obtain ⟨as, au⟩ := a
  obtain ⟨bs, bu⟩ := b
  obtain ⟨cs, cu⟩ := c
  simp only [hg_time.normalised] at na nb nc
  simp only [hg_time_less, hg_time.total, ne_eq, hg_time_eq_iff]
  refine ⟨?_, ?_, ?_, ?_, ?_, ?_⟩
  · split_ifs <;> simp
  · split_ifs <;> simp <;> omega
  · split_ifs <;> simp <;> omega
  · split_ifs
    · omega
    · rfl
  · intro h1 h2
    split_ifs at h1 h2 ⊢ <;> first | rfl | omega
  · split_ifs <;> simp <;> omega

theorem hg_time_less_strict_total_order_witness :
    (hg_time_less ⟨1, 5⟩ ⟨1, 6⟩ = 1 ∨ hg_time_less ⟨1, 5⟩ ⟨1, 6⟩ = 0) ∧
      (hg_time_less ⟨1, 5⟩ ⟨1, 6⟩ = 1 ↔
        (hg_time.mk 1 5).total < (hg_time.mk 1 6).total) ∧
      (hg_time_less ⟨1, 5⟩ ⟨1, 6⟩ = 0 ↔
        ¬ (hg_time.mk 1 5).total < (hg_time.mk 1 6).total) ∧
      hg_time_less ⟨1, 5⟩ ⟨1, 5⟩ = 0 ∧
      (hg_time_less ⟨1, 5⟩ ⟨1, 6⟩ = 1 → hg_time_less ⟨1, 6⟩ ⟨2, 0⟩ = 1 →
        hg_time_less ⟨1, 5⟩ ⟨2, 0⟩ = 1) ∧
      ((hg_time_less ⟨1, 5⟩ ⟨1, 6⟩ = 1 ∧ hg_time.mk 1 5 ≠ ⟨1, 6⟩ ∧
          hg_time_less ⟨1, 6⟩ ⟨1, 5⟩ ≠ 1) ∨
        (hg_time_less ⟨1, 5⟩ ⟨1, 6⟩ ≠ 1 ∧ hg_time.mk 1 5 = ⟨1, 6⟩ ∧
          hg_time_less ⟨1, 6⟩ ⟨1, 5⟩ ≠ 1) ∨
        (hg_time_less ⟨1, 5⟩ ⟨1, 6⟩ ≠ 1 ∧ hg_time.mk 1 5 ≠ ⟨1, 6⟩ ∧
          hg_time_less ⟨1, 6⟩ ⟨1, 5⟩ = 1)) :=
  hg_time_less_strict_total_order ⟨1, 5⟩ ⟨1, 6⟩ ⟨2, 0⟩
    (by decide) (by decide) (by decide)

/-! ## Timed condition wait -/

/-- On the values the deadline computation meets (a normalised `now`, a
32-bit unsigned `timeout`, deadline seconds within `long`) its result is the
quotient and remainder of the microsecond sum. -/
theorem abs_timeout_of_eq (now : hg_time) (timeout : Int)
    (wn : now.wf) (nn : now.normalised) (ht0 : 0 ≤ timeout) (ht1 : timeout ≤ UINT_MAX)
    (hno : now.tv_sec + (now.tv_usec + timeout * 1000) / 1000000 ≤ LONG_MAX) :
    abs_timeout_of now timeout =
      ⟨now.tv_sec + (now.tv_usec + timeout * 1000) / 1000000,
        (now.tv_usec + timeout * 1000) % 1000000 * 1000⟩ := by
  unfold hg_time.wf isLong LONG_MIN LONG_MAX at wn
  unfold hg_time.normalised at nn
  unfold UINT_MAX at ht1
  unfold LONG_MAX at hno
  have e1 : wrapLong (timeout * 1000) = timeout * 1000 := by
    unfold wrapLong; omega
  have e2 : wrapLong (now.tv_usec + timeout * 1000) = now.tv_usec + timeout * 1000 := by
    unfold wrapLong; omega
  have hpos : 0 ≤ now.tv_usec + timeout * 1000 := by omega
  have e3 : Int.tdiv (now.tv_usec + timeout * 1000) 1000000 =
      (now.tv_usec + timeout * 1000) / 1000000 :=
    Int.tdiv_eq_ediv hpos (by decide)
  have e4 : Int.tmod (now.tv_usec + timeout * 1000) 1000000 =
      (now.tv_usec + timeout * 1000) % 1000000 :=
    Int.tmod_eq_emod hpos (by decide)
  have e5 : wrapLong ((now.tv_usec + timeout * 1000) / 1000000) =
      (now.tv_usec + timeout * 1000) / 1000000 := by
    unfold wrapLong; omega
  have e6 : wrapLong (now.tv_sec + (now.tv_usec + timeout * 1000) / 1000000) =
      now.tv_sec + (now.tv_usec + timeout * 1000) / 1000000 := by
    unfold wrapLong; omega
  have e7 : wrapLong ((now.tv_usec + timeout * 1000) % 1000000 * 1000) =
      (now.tv_usec + timeout * 1000) % 1000000 * 1000 := by
    unfold wrapLong; omega
  simp only [abs_timeout_of, ldiv, e1, e2, e3, e4, e5, e6, e7]

/-- C6: when the clock read succeeds with a normalised `now` and `timeout` is a
32-bit unsigned number of milliseconds (the deadline's seconds fitting a
`long`), the wait primitive is called once, with a deadline equal to
`now + timeout`: `tv_sec * 10^9 + tv_nsec = (total now + timeout * 1000) * 1000`
and `0 ≤ tv_nsec < 10^9`. -/
theorem hg_thread_cond_timedwait_deadline (cfg : util_config) (src : clock_source)
    (status : Int) (now : hg_time) (wait : timespec → Int) (timeout : Int)
    (hok : clock_read_ok cfg src status)
    (wn : now.wf) (nn : now.normalised) (ht0 : 0 ≤ timeout) (ht1 : timeout ≤ UINT_MAX)
    (hno : now.tv_sec + (now.tv_usec + timeout * 1000) / 1000000 ≤ LONG_MAX) :
    (hg_thread_cond_timedwait cfg src (status, now) wait timeout).2 =
        [os_call.clock_read, os_call.pthread_cond_timedwait (abs_timeout_of now timeout)] ∧
      (abs_timeout_of now timeout).tv_sec * 1000000000 + (abs_timeout_of now timeout).tv_nsec =
        (now.tv_sec * 1000000 + now.tv_usec + timeout * 1000) * 1000 ∧
      0 ≤ (abs_timeout_of now timeout).tv_nsec ∧
      (abs_timeout_of now timeout).tv_nsec < 1000000000 := by
  refine ⟨?_, ?_⟩
  · simp [hg_thread_cond_timedwait, hok]
  · rw [abs_timeout_of_eq now timeout wn nn ht0 ht1 hno]
    simp only []
    omega

theorem hg_thread_cond_timedwait_deadline_witness :
    (hg_thread_cond_timedwait ⟨0, -1⟩ clock_source.hg_time_get_current
          (0, ⟨5, 999000⟩) (fun _ => 0) 2500).2 =
        [os_call.clock_read,
          os_call.pthread_cond_timedwait (abs_timeout_of ⟨5, 999000⟩ 2500)] ∧
      (abs_timeout_of ⟨5, 999000⟩ 2500).tv_sec * 1000000000 +
          (abs_timeout_of ⟨5, 999000⟩ 2500).tv_nsec =
        (5 * 1000000 + 999000 + 2500 * 1000) * 1000 ∧
      0 ≤ (abs_timeout_of ⟨5, 999000⟩ 2500).tv_nsec ∧
      (abs_timeout_of ⟨5, 999000⟩ 2500).tv_nsec < 1000000000 :=
  hg_thread_cond_timedwait_deadline ⟨0, -1⟩ clock_source.hg_time_get_current 0
    ⟨5, 999000⟩ (fun _ => 0) 2500 (by decide) (by decide) (by decide) (by decide)
    (by decide) (by decide)

/-- C7: with status codes as documented (success non-negative, failure
negative), `hg_thread_cond_timedwait` returns `HG_UTIL_FAIL` exactly when the
clock read fails or the wait primitive returns non-zero, `HG_UTIL_SUCCESS`
otherwise, and after a failed clock read the wait primitive is not called. -/
theorem hg_thread_cond_timedwait_status (cfg : util_config) (src : clock_source)
    (clock : Int × hg_time) (wait : timespec → Int) (timeout : Int)
    (hcfg : cfg.wf) :
    ((hg_thread_cond_timedwait cfg src clock wait timeout).1 = cfg.HG_UTIL_FAIL ↔
        (¬ clock_read_ok cfg src clock.1 ∨ wait (abs_timeout_of clock.2 timeout) ≠ 0)) ∧
      ((hg_thread_cond_timedwait cfg src clock wait timeout).1 = cfg.HG_UTIL_SUCCESS ↔
        (clock_read_ok cfg src clock.1 ∧ wait (abs_timeout_of clock.2 timeout) = 0)) ∧
      (¬ clock_read_ok cfg src clock.1 →
        (hg_thread_cond_timedwait cfg src clock wait timeout).2 = [os_call.clock_read]) ∧
      (clock_read_ok cfg src clock.1 →
        (hg_thread_cond_timedwait cfg src clock wait timeout).2 =
          [os_call.clock_read,
            os_call.pthread_cond_timedwait (abs_timeout_of clock.2 timeout)]) := by
  unfold util_config.wf at hcfg
  have hne : cfg.HG_UTIL_SUCCESS ≠ cfg.HG_UTIL_FAIL := by omega
  by_cases hok : clock_read_ok cfg src clock.1
  · by_cases hw : wait (abs_timeout_of clock.2 timeout) = 0
    · simp [hg_thread_cond_timedwait, hok, hw, hne]
    · simp [hg_thread_cond_timedwait, hok, hw, hne.symm]
  · simp [hg_thread_cond_timedwait, hok, hne.symm]

theorem hg_thread_cond_timedwait_status_witness :
    ((hg_thread_cond_timedwait ⟨0, -1⟩ clock_source.gettimeofday
          (-1, ⟨0, 0⟩) (fun _ => 0) 10).1 = (util_config.mk 0 (-1)).HG_UTIL_FAIL ↔
        (¬ clock_read_ok ⟨0, -1⟩ clock_source.gettimeofday (-1, hg_time.mk 0 0).1 ∨
          (fun _ => 0) (abs_timeout_of (-1, hg_time.mk 0 0).2 10) ≠ (0 : Int))) ∧
      ((hg_thread_cond_timedwait ⟨0, -1⟩ clock_source.gettimeofday
          (-1, ⟨0, 0⟩) (fun _ => 0) 10).1 = (util_config.mk 0 (-1)).HG_UTIL_SUCCESS ↔
        (clock_read_ok ⟨0, -1⟩ clock_source.gettimeofday (-1, hg_time.mk 0 0).1 ∧
          (fun _ => 0) (abs_timeout_of (-1, hg_time.mk 0 0).2 10) = (0 : Int))) ∧
      (¬ clock_read_ok ⟨0, -1⟩ clock_source.gettimeofday (-1, hg_time.mk 0 0).1 →
        (hg_thread_cond_timedwait ⟨0, -1⟩ clock_source.gettimeofday
          (-1, ⟨0, 0⟩) (fun _ => 0) 10).2 = [os_call.clock_read]) ∧
      (clock_read_ok ⟨0, -1⟩ clock_source.gettimeofday (-1, hg_time.mk 0 0).1 →
        (hg_thread_cond_timedwait ⟨0, -1⟩ clock_source.gettimeofday
          (-1, ⟨0, 0⟩) (fun _ => 0) 10).2 =
          [os_call.clock_read,
            os_call.pthread_cond_timedwait (abs_timeout_of (-1, hg_time.mk 0 0).2 10)]) :=
  hg_thread_cond_timedwait_status ⟨0, -1⟩ clock_source.gettimeofday
    (-1, ⟨0, 0⟩) (fun _ => 0) 10 (by decide)

/-! ## Reading the clock -/

/-- C8: for two clock readings (nanoseconds in `[0, 10^9)`) with the first not
later than the second, `hg_time_get_current_clock_gettime` succeeds with time
values `t1`, `t2` whose microseconds lie in `[0, 1000000)` and whose seconds
are those of the readings, so that both are normalised as soon as the earlier
reading has non-negative seconds (as every reading of the monotonic clock
has); and `hg_time_less t1 t2 = 1` or `t1 = t2`. -/
theorem hg_time_get_current_clock_gettime_monotonic (cfg : util_config)
    (r1 r2 : timespec) (h1 : r1.reading) (h2 : r2.reading)
    (hle : r1.total ≤ r2.total) :
    (hg_time_get_current_clock_gettime cfg r1).1 = cfg.HG_UTIL_SUCCESS ∧
      (hg_time_get_current_clock_gettime cfg r2).1 = cfg.HG_UTIL_SUCCESS ∧
      (0 ≤ r1.tv_sec →
        (hg_time_get_current_clock_gettime cfg r1).2.normalised ∧
          (hg_time_get_current_clock_gettime cfg r2).2.normalised) ∧
      (hg_time_less (hg_time_get_current_clock_gettime cfg r1).2
            (hg_time_get_current_clock_gettime cfg r2).2 = 1 ∨
        (hg_time_get_current_clock_gettime cfg r1).2 =
          (hg_time_get_current_clock_gettime cfg r2).2) := by
  obtain ⟨s1, n1⟩ := r1
  obtain ⟨s2, n2⟩ := r2
  simp only [timespec.reading] at h1 h2
  simp only [timespec.total] at hle
  have e1 : Int.tdiv n1 1000 = n1 / 1000 := Int.tdiv_eq_ediv h1.1 (by decide)
  have e2 : Int.tdiv n2 1000 = n2 / 1000 := Int.tdiv_eq_ediv h2.1 (by decide)
  simp only [hg_time_get_current_clock_gettime, e1, e2, hg_time.normalised,
    hg_time_less, hg_time_eq_iff, true_and]
  refine ⟨fun hs => ⟨by omega, by omega⟩, ?_⟩
  split_ifs with hc
  · exact Or.inl rfl
  · right
    omega

theorem hg_time_get_current_clock_gettime_monotonic_witness :
    (hg_time_get_current_clock_gettime ⟨0, -1⟩ ⟨7, 123456789⟩).1 =
        (util_config.mk 0 (-1)).HG_UTIL_SUCCESS ∧
      (hg_time_get_current_clock_gettime ⟨0, -1⟩ ⟨7, 123457001⟩).1 =
        (util_config.mk 0 (-1)).HG_UTIL_SUCCESS ∧
      ((0 : Int) ≤ (timespec.mk 7 123456789).tv_sec →
        (hg_time_get_current_clock_gettime ⟨0, -1⟩ ⟨7, 123456789⟩).2.normalised ∧
          (hg_time_get_current_clock_gettime ⟨0, -1⟩ ⟨7, 123457001⟩).2.normalised) ∧
      (hg_time_less (hg_time_get_current_clock_gettime ⟨0, -1⟩ ⟨7, 123456789⟩).2
            (hg_time_get_current_clock_gettime ⟨0, -1⟩ ⟨7, 123457001⟩).2 = 1 ∨
        (hg_time_get_current_clock_gettime ⟨0, -1⟩ ⟨7, 123456789⟩).2 =
          (hg_time_get_current_clock_gettime ⟨0, -1⟩ ⟨7, 123457001⟩).2) :=
  hg_time_get_current_clock_gettime_monotonic ⟨0, -1⟩ ⟨7, 123456789⟩ ⟨7, 123457001⟩
    (by decide) (by decide) (by decide)

/-! ## Conversion from seconds -/

/-- Halving never counts more digits than a bound `2 ^ k` on `n` allows. -/
theorem bit_length_aux_le (fuel : Nat) : ∀ (n k : Nat), n < 2 ^ k →
    bit_length_aux fuel n ≤ k := by
  induction fuel with
  | zero => intro n k _; exact Nat.zero_le k
  | succ f ih =>
    intro n k h
    unfold bit_length_aux
    split_ifs with h0
    · exact Nat.zero_le k
    · cases k with
      | zero => simp at h; exact absurd h h0
      | succ k' =>
        have h2 : n / 2 < 2 ^ k' := by
          rw [pow_succ] at h
          omega
        have := ih (n / 2) k' h2
        omega

/-- A number below `2 ^ k` has at most `k` bits. -/
theorem bit_length_le (n k : Nat) (h : n < 2 ^ k) : bit_length n ≤ k :=
  bit_length_aux_le n n k h

/-- With fuel at least `n` the count of `bit_length_aux` covers all digits. -/
theorem lt_two_pow_bit_length_aux (fuel : Nat) : ∀ n : Nat, n ≤ fuel →
    n < 2 ^ bit_length_aux fuel n := by
  induction fuel with
  | zero => intro n h; simp [bit_length_aux]; omega
  | succ f ih =>
    intro n h
    unfold bit_length_aux
    split_ifs with h0
    · simp [h0]
    · have h2 := ih (n / 2) (by omega)
      rw [pow_succ]
      omega

/-- The fuel of `bit_length` suffices: `n` fits in `bit_length n` bits. -/
theorem lt_two_pow_bit_length (n : Nat) : n < 2 ^ bit_length n :=
  lt_two_pow_bit_length_aux n n (Nat.le_refl n)

/-- Rounding at the scale `2 ^ 0` changes nothing. -/
theorem round_shift_zero (m : Int) : round_shift m 0 = m := by
  simp [round_shift]

/-- `round_shift` returns the floor of the quotient, or the next integer, and
the next integer only when the remainder is at least half the divisor. -/
theorem round_shift_cases (m : Int) (k : Nat) :
    round_shift m k = m / 2 ^ k ∨
      (round_shift m k = m / 2 ^ k + 1 ∧ (2 : Int) ^ k ≤ 2 * (m % 2 ^ k)) := by
  unfold round_shift
  simp only []
  split_ifs with h1 h2 h3
  · exact Or.inl rfl
  · exact Or.inr ⟨rfl, le_of_lt h2⟩
  · exact Or.inl rfl
  · exact Or.inr ⟨rfl, not_lt.mp h1⟩

/-- A non-negative significand of at most 53 bits at an exponent of at least
`-1074` is a binary64 value: rounding leaves it as it is. -/
theorem round_exact (n e : Int) (h0 : 0 ≤ n) (h1 : n < 2 ^ 53) (he : -1074 ≤ e) :
    double.round n e = ⟨n, e⟩ := by
  have hb : bit_length n.natAbs ≤ 53 := by
    apply bit_length_le
    omega
  have hk : max (bit_length n.natAbs - 53) (-1074 - e).toNat = 0 := by
    have : (-1074 - e).toNat = 0 := by omega
    rw [this]
    omega
  simp [double.round, hk, round_shift_zero]


/-- Dividing by a product of positive integers is dividing twice. -/
theorem ediv_ediv_pos (X K L : Int) (hK : 0 < K) (hL : 0 < L) :
    X / (K * L) = X / K / L := by
  have hr0 : 0 ≤ X % K := Int.emod_nonneg _ (ne_of_gt hK)
  have hr1 : X % K < K := Int.emod_lt_of_pos _ hK
  have hX : K * (X / K) + X % K = X := Int.ediv_add_emod X K
  have hb0 : 0 ≤ X / K % L := Int.emod_nonneg _ (ne_of_gt hL)
  have hb1 : X / K % L < L := Int.emod_lt_of_pos _ hL
  have hqf : L * (X / K / L) + X / K % L = X / K := Int.ediv_add_emod (X / K) L
  have hKL : 0 < K * L := Int.mul_pos hK hL
  have key : K * (X / K % L) ≤ K * (L - 1) :=
    mul_le_mul_of_nonneg_left (by omega) (le_of_lt hK)
  have key0 : 0 ≤ K * (X / K % L) := Int.mul_nonneg (le_of_lt hK) hb0
  have e1 : K * (X / K) = K * L * (X / K / L) + K * (X / K % L) := by
    calc K * (X / K) = K * (L * (X / K / L) + X / K % L) := by rw [hqf]
      _ = K * L * (X / K / L) + K * (X / K % L) := by ring
  have e2 : K * (L - 1) = K * L - K := by ring
  exact ((Int.ediv_emod_unique hKL).mpr
    ⟨show (K * (X / K % L) + X % K) + K * L * (X / K / L) = X by omega,
      by omega, by omega⟩).1

/-- The last step of the conversion on integers: `X` is the exact product
scaled by `K * L`, `q` its rounding at the scale `K`, and `q / L` the
truncation of the rounded product. -/
theorem round_then_truncate (X K L q : Int) (hK : 0 < K) (hL : 0 < L)
    (hq : q = X / K ∨ (q = X / K + 1 ∧ K ≤ 2 * (X % K)))
    (hXb : X + 1000000 ≤ 1000000 * (K * L)) (hK2 : K < 2000000) :
    X / (K * L) ≤ q / L ∧ q / L ≤ X / (K * L) + 1 ∧ q / L < 1000000 ∧
      2 * (q / L * (K * L) - X) ≤ K ∧ (q = X / K → q / L * (K * L) ≤ X) := by
  have e1 : X / (K * L) = X / K / L := ediv_ediv_pos X K L hK hL
  have hr0 : 0 ≤ X % K := Int.emod_nonneg _ (ne_of_gt hK)
  have hr1 : X % K < K := Int.emod_lt_of_pos _ hK
  have hX : K * (X / K) + X % K = X := Int.ediv_add_emod X K
  have hb0 : 0 ≤ X / K % L := Int.emod_nonneg _ (ne_of_gt hL)
  have hb1 : X / K % L < L := Int.emod_lt_of_pos _ hL
  have hqf : L * (X / K / L) + X / K % L = X / K := Int.ediv_add_emod (X / K) L
  have hlt : X / K < 1000000 * L := by
    apply Int.ediv_lt_of_lt_mul hK
    have : 1000000 * L * K = 1000000 * (K * L) := by ring
    omega
  have hdown : X / K / L * (K * L) ≤ X := by
    have h1 : X / K / L * (K * L) = K * (L * (X / K / L)) := by ring
    have h2 : K * (L * (X / K / L)) ≤ K * (X / K) :=
      mul_le_mul_of_nonneg_left (by omega) (le_of_lt hK)
    omega
  have hup : ∀ t : Int, t ≤ X / K + 1 → K ≤ 2 * (X % K) →
      2 * (t / L * (K * L) - X) ≤ K := by
    intro t ht hround
    have h0 : L * (t / L) ≤ t := by
      have := Int.ediv_add_emod t L
      have := Int.emod_nonneg t (ne_of_gt hL)
      omega
    have h1 : t / L * (K * L) = K * (L * (t / L)) := by ring
    have h2 : K * (L * (t / L)) ≤ K * (X / K + 1) :=
      mul_le_mul_of_nonneg_left (by omega) (le_of_lt hK)
    have h3 : K * (X / K + 1) = K * (X / K) + K := by ring
    omega
  rw [e1]
  rcases hq with hq | ⟨hq, hround⟩
  · rw [hq]
    refine ⟨le_refl _, by omega, ?_, by omega, fun _ => hdown⟩
    exact Int.ediv_lt_of_lt_mul hL hlt
  · rw [hq]
    refine ⟨?_, ?_, ?_, hup _ (le_refl _) hround, ?_⟩
    rotate_left 3
    · intro habs
      omega
    · apply Int.le_ediv_of_mul_le hL
      have : X / K / L * L = L * (X / K / L) := by ring
      omega
    · apply Int.ediv_le_of_le_mul hL
      have : (X / K / L + 1) * L = L * (X / K / L) + L := by ring
      omega
    · apply Int.ediv_lt_of_lt_mul hL
      by_contra hcon
      have h1 : 1000000 * L ≤ X / K + 1 := by omega
      have h2 : K * (1000000 * L) ≤ K * (X / K + 1) :=
        mul_le_mul_of_nonneg_left h1 (le_of_lt hK)
      have h3 : K * (1000000 * L) = 1000000 * (K * L) := by ring
      have h4 : K * (X / K + 1) = K * (X / K) + K := by ring
      omega


/-- The conversion to `long` of a non-negative value with a non-positive
exponent is the floor of the quotient. -/
theorem long_of_double_neg (q : Int) (i : Nat) (hq : 0 ≤ q) :
    long_of_double ⟨q, -(i : Int)⟩ = q / 2 ^ i := by
  unfold long_of_double
  by_cases hi : i = 0
  · subst hi
    simp
  · have h1 : ¬ (0 : Int) ≤ -(i : Int) := by omega
    simp only [h1, if_false, neg_neg, Int.toNat_ofNat]
    exact Int.tdiv_eq_ediv hq (by positivity)

/-- The conversion at a non-negative binary64 value `m * 2 ^ (-j)`, on integers:
the seconds are the quotient, the microseconds the floor of
`(m % 2 ^ j) * 1000000 / 2 ^ j` or one more, below `1000000`, and they exceed
the exact product by at most `2 ^ (-34)`. -/
theorem hg_time_from_double_neg (m : Int) (j : Nat) (hm0 : 0 ≤ m) (hm1 : m < 2 ^ 53)
    (hj1 : 1 ≤ j) (hj2 : j ≤ 1074) :
    (hg_time_from_double ⟨m, -(j : Int)⟩).tv_sec = m / 2 ^ j ∧
      m % 2 ^ j * 1000000 / 2 ^ j ≤ (hg_time_from_double ⟨m, -(j : Int)⟩).tv_usec ∧
      (hg_time_from_double ⟨m, -(j : Int)⟩).tv_usec ≤ m % 2 ^ j * 1000000 / 2 ^ j + 1 ∧
      (hg_time_from_double ⟨m, -(j : Int)⟩).tv_usec < 1000000 ∧
      17179869184 * ((hg_time_from_double ⟨m, -(j : Int)⟩).tv_usec * 2 ^ j -
        m % 2 ^ j * 1000000) ≤ 2 ^ j := by
  have hP : (0 : Int) < 2 ^ j := by positivity
  have hsec : long_of_double ⟨m, -(j : Int)⟩ = m / 2 ^ j := long_of_double_neg m j hm0
  have hs0 : 0 ≤ m / 2 ^ j := Int.ediv_nonneg hm0 (le_of_lt hP)
  have hs1 : m / 2 ^ j ≤ m := Int.ediv_le_self _ hm0
  have hof : double.of_long (m / 2 ^ j) = ⟨m / 2 ^ j, 0⟩ :=
    round_exact _ 0 hs0 (by omega) (by omega)
  have hf0 : 0 ≤ m % 2 ^ j := Int.emod_nonneg _ (ne_of_gt hP)
  have hf1 : m % 2 ^ j < 2 ^ j := Int.emod_lt_of_pos _ hP
  have hmd : 2 ^ j * (m / 2 ^ j) + m % 2 ^ j = m := Int.ediv_add_emod m (2 ^ j)
  have hf2 : m % 2 ^ j ≤ m := by
    have : 0 ≤ 2 ^ j * (m / 2 ^ j) := Int.mul_nonneg (le_of_lt hP) hs0
    omega
  have hsub : double.sub ⟨m, -(j : Int)⟩ ⟨m / 2 ^ j, 0⟩ = ⟨m % 2 ^ j, -(j : Int)⟩ := by
    have hmin : min (-(j : Int)) 0 = -(j : Int) := by omega
    have h1 : (-(j : Int) - -(j : Int)).toNat = 0 := by omega
    have h2 : ((0 : Int) - -(j : Int)).toNat = j := by omega
    have h3 : m * 2 ^ 0 - m / 2 ^ j * 2 ^ j = m % 2 ^ j := by
      have : m / 2 ^ j * 2 ^ j = 2 ^ j * (m / 2 ^ j) := by ring
      omega
    simp only [double.sub, hmin, h1, h2, h3]
    exact round_exact _ _ hf0 (by omega) (by omega)
  -- the product
  have hX0 : 0 ≤ m % 2 ^ j * 1000000 := by omega
  have hbits : bit_length (m % 2 ^ j * 1000000).natAbs ≤ 53 + j ∧
      bit_length (m % 2 ^ j * 1000000).natAbs ≤ 73 ∧
      bit_length (m % 2 ^ j * 1000000).natAbs ≤ 20 + j := by
    refine ⟨?_, ?_, ?_⟩
    rotate_left 2
    · apply bit_length_le
      have : ((2 : Int) ^ (20 + j)) = 2 ^ 20 * 2 ^ j := by rw [pow_add]
      zify
      rw [abs_of_nonneg hX0, this]
      omega
    · apply bit_length_le
      have : ((2 : Int) ^ (53 + j)) = 2 ^ 53 * 2 ^ j := by rw [pow_add]
      zify
      rw [abs_of_nonneg hX0, this]
      omega
    · apply bit_length_le
      zify
      rw [abs_of_nonneg hX0]
      omega
  obtain ⟨hb1, hb2, hb3⟩ := hbits
  have hk1 : bit_length (m % 2 ^ j * 1000000).natAbs - 53 ≤ j := by omega
  have hk2 : bit_length (m % 2 ^ j * 1000000).natAbs - 53 ≤ 20 := by omega
  have hk3 : bit_length (m % 2 ^ j * 1000000).natAbs - 53 = 0 ∨
      bit_length (m % 2 ^ j * 1000000).natAbs - 53 + 33 ≤ j := by omega
  generalize hk : bit_length (m % 2 ^ j * 1000000).natAbs - 53 = k at hk1 hk2 hk3
  have hmul : double.mul ⟨m % 2 ^ j, -(j : Int)⟩ ⟨1000000, 0⟩ =
      ⟨round_shift (m % 2 ^ j * 1000000) k, -(((j - k : Nat) : Int))⟩ := by
    have h1 : (-1074 - (-(j : Int) + 0)).toNat = 0 := by omega
    have h2 : -(j : Int) + 0 + ((max k 0 : Nat) : Int) = -(((j - k : Nat) : Int)) := by
      omega
    simp only [double.mul, double.round, hk, h1, h2]
    simp
  have hK : (0 : Int) < 2 ^ k := by positivity
  have hL : (0 : Int) < 2 ^ (j - k) := by positivity
  have hKL : (2 : Int) ^ k * 2 ^ (j - k) = 2 ^ j := by
    rw [← pow_add]
    congr 1
    omega
  have hcases := round_shift_cases (m % 2 ^ j * 1000000) k
  have hq0 : 0 ≤ round_shift (m % 2 ^ j * 1000000) k := by
    have : 0 ≤ m % 2 ^ j * 1000000 / 2 ^ k := Int.ediv_nonneg hX0 (le_of_lt hK)
    rcases hcases with h | ⟨h, _⟩ <;> omega
  have hK2 : (2 : Int) ^ k < 2000000 := by
    have : (2 : Int) ^ k ≤ 2 ^ 20 := pow_le_pow_right₀ (by norm_num) hk2
    omega
  have hfin := round_then_truncate (m % 2 ^ j * 1000000) (2 ^ k) (2 ^ (j - k))
    (round_shift (m % 2 ^ j * 1000000) k) hK hL hcases (by rw [hKL]; omega) hK2
  rw [hKL] at hfin
  have husec : (hg_time_from_double ⟨m, -(j : Int)⟩).tv_usec =
      round_shift (m % 2 ^ j * 1000000) k / 2 ^ (j - k) := by
    simp only [hg_time_from_double, hsec, hof, hsub, hmul]
    exact long_of_double_neg _ _ hq0
  rw [husec]
  obtain ⟨f1, f2, f3, f4, f5⟩ := hfin
  refine ⟨?_, f1, f2, f3, ?_⟩
  · simp only [hg_time_from_double, hsec]
  · rcases hk3 with hk0 | hk33
    · subst hk0
      have := f5 (by rw [round_shift_zero]; simp)
      omega
    · have h1 : (2 : Int) ^ (k + 33) ≤ 2 ^ j := pow_le_pow_right₀ (by norm_num) hk33
      have h2 : (2 : Int) ^ (k + 33) = 2 ^ k * 8589934592 := by
        rw [pow_add]; norm_num
      omega


/-- Zero rounds to zero. -/
theorem round_shift_zero_left (k : Nat) : round_shift 0 k = 0 := by
  have : (0 : Int) < 2 ^ k := by positivity
  simp [round_shift, this]

/-- Rounding the value zero gives a zero significand. -/
theorem round_m_zero (e : Int) : (double.round 0 e).m = 0 := by
  simp [double.round, round_shift_zero_left]

/-- A zero significand converts to the `long` zero. -/
theorem long_of_double_m_zero (x : double) (h : x.m = 0) : long_of_double x = 0 := by
  unfold long_of_double
  rw [h]
  split_ifs <;> simp

/-- A multiple of `2 ^ k` is divided exactly. -/
theorem round_shift_of_dvd (n : Int) (k : Nat) :
    round_shift (n * 2 ^ k) k = n := by
  have hK : (0 : Int) < 2 ^ k := by positivity
  have h1 : n * 2 ^ k % 2 ^ k = 0 := Int.mul_emod_left n (2 ^ k)
  have h2 : n * 2 ^ k / 2 ^ k = n := Int.mul_ediv_cancel n (ne_of_gt hK)
  simp [round_shift, h1, h2, hK]

/-- The conversion at a non-negative binary64 value `m * 2 ^ e` with `e ≥ 0`, an
integer: the seconds are the value and the microseconds are zero. -/
theorem hg_time_from_double_nonneg_exp (m : Int) (e : Nat) (hm0 : 0 ≤ m)
    (hm1 : m < 2 ^ 53) :
    hg_time_from_double ⟨m, (e : Int)⟩ = ⟨m * 2 ^ e, 0⟩ := by
  have hE : (0 : Int) < 2 ^ e := by positivity
  have hsec : long_of_double ⟨m, (e : Int)⟩ = m * 2 ^ e := by
    simp [long_of_double]
  have hs0 : 0 ≤ m * 2 ^ e := Int.mul_nonneg hm0 (le_of_lt hE)
  have hb : bit_length (m * 2 ^ e).natAbs ≤ 53 + e := by
    apply bit_length_le
    have h1 : ((2 : Int) ^ (53 + e)) = 2 ^ 53 * 2 ^ e := by rw [pow_add]
    have h2 : m * 2 ^ e < 2 ^ 53 * 2 ^ e := by
      apply mul_lt_mul_of_pos_right hm1 hE
    zify
    rw [abs_of_nonneg hs0, h1]
    exact h2
  have hks : bit_length (m * 2 ^ e).natAbs - 53 ≤ e := by omega
  generalize hk : bit_length (m * 2 ^ e).natAbs - 53 = ks at hks
  have hsplit : m * 2 ^ e = m * 2 ^ (e - ks) * 2 ^ ks := by
    rw [mul_assoc, ← pow_add]
    congr 2
    omega
  have hof : double.of_long (m * 2 ^ e) = ⟨m * 2 ^ (e - ks), (ks : Int)⟩ := by
    have h1 : ((-1074 : Int) - 0).toNat = 0 := by omega
    have h2 : max ks 0 = ks := by omega
    simp only [double.of_long, double.round, hk, h1, h2]
    rw [hsplit, round_shift_of_dvd]
    simp
  have hsub : (double.sub ⟨m, (e : Int)⟩ ⟨m * 2 ^ (e - ks), (ks : Int)⟩).m = 0 := by
    have hmin : min (e : Int) (ks : Int) = ks := by omega
    have h1 : ((e : Int) - (ks : Int)).toNat = e - ks := by omega
    have h2 : ((ks : Int) - (ks : Int)).toNat = 0 := by omega
    simp only [double.sub, hmin, h1, h2]
    have : m * 2 ^ (e - ks) - m * 2 ^ (e - ks) * 2 ^ 0 = 0 := by ring
    rw [this]
    exact round_m_zero _
  have hmul : (double.mul (double.sub ⟨m, (e : Int)⟩ ⟨m * 2 ^ (e - ks), (ks : Int)⟩)
      ⟨1000000, 0⟩).m = 0 := by
    simp only [double.mul, hsub, zero_mul]
    exact round_m_zero _
  simp only [hg_time_from_double, hsec, hof]
  rw [long_of_double_m_zero _ hmul]


/-- The conversion at a non-negative binary64 value, in terms of the number it
stands for. -/
theorem hg_time_from_double_floor (d : double) (hf : d.finite) (h0 : 0 ≤ d.toRat) :
    (hg_time_from_double d).tv_sec = ⌊d.toRat⌋ ∧
      ((hg_time_from_double d).tv_usec = ⌊(d.toRat - (⌊d.toRat⌋ : ℚ)) * 1000000⌋ ∨
        (hg_time_from_double d).tv_usec =
          ⌊(d.toRat - (⌊d.toRat⌋ : ℚ)) * 1000000⌋ + 1) ∧
      (hg_time_from_double d).tv_usec < 1000000 ∧
      ((hg_time_from_double d).tv_usec : ℚ) - (d.toRat - (⌊d.toRat⌋ : ℚ)) * 1000000 ≤
        1 / 17179869184 := by
  obtain ⟨m, e⟩ := d
  simp only [double.finite] at hf
  obtain ⟨-, hm1, he0, -⟩ := hf
  simp only [double.toRat] at h0 ⊢
  have hpow : (0 : ℚ) < (2 : ℚ) ^ e := by positivity
  have hm0 : 0 ≤ m := by
    have : (0 : ℚ) ≤ (m : ℚ) := nonneg_of_mul_nonneg_left h0 hpow
    exact_mod_cast this
  have hm1' : m < 2 ^ 53 := by norm_num; exact hm1
  by_cases he : 0 ≤ e
  · obtain ⟨n, rfl⟩ := Int.eq_ofNat_of_zero_le he
    rw [hg_time_from_double_nonneg_exp m n hm0 hm1']
    have hv : (m : ℚ) * (2 : ℚ) ^ (n : Int) = ((m * 2 ^ n : Int) : ℚ) := by
      push_cast
      rw [zpow_natCast]
    rw [hv, Int.floor_intCast]
    simp
  · have hj : e = -(((-e).toNat : Nat) : Int) := by omega
    generalize (-e).toNat = j at hj
    subst hj
    have hj1 : 1 ≤ j := by omega
    have hj2 : j ≤ 1074 := by omega
    obtain ⟨k1, k2, k3, k4, k5⟩ := hg_time_from_double_neg m j hm0 hm1' hj1 hj2
    have hv : (m : ℚ) * (2 : ℚ) ^ (-(j : Int)) = (m : ℚ) / ((2 ^ j : Nat) : ℚ) := by
      rw [zpow_neg, zpow_natCast, div_eq_mul_inv]
      push_cast
      rfl
    have hfl : ⌊(m : ℚ) / ((2 ^ j : Nat) : ℚ)⌋ = m / 2 ^ j := by
      rw [Rat.floor_intCast_div_natCast]
      push_cast
      rfl
    have hPq : (0 : ℚ) < ((2 ^ j : Nat) : ℚ) := by positivity
    have hmd : 2 ^ j * (m / 2 ^ j) + m % 2 ^ j = m := Int.ediv_add_emod m (2 ^ j)
    have hx : ((m : ℚ) / ((2 ^ j : Nat) : ℚ) - ((m / 2 ^ j : Int) : ℚ)) * 1000000 =
        ((m % 2 ^ j * 1000000 : Int) : ℚ) / ((2 ^ j : Nat) : ℚ) := by
      have hmq : (m : ℚ) = (2 : ℚ) ^ j * ((m / 2 ^ j : Int) : ℚ) + ((m % 2 ^ j : Int) : ℚ) := by
        exact_mod_cast hmd.symm
      rw [eq_div_iff (ne_of_gt hPq)]
      field_simp
      linear_combination hmq
    have hxfl : ⌊((m % 2 ^ j * 1000000 : Int) : ℚ) / ((2 ^ j : Nat) : ℚ)⌋ =
        m % 2 ^ j * 1000000 / 2 ^ j := by
      rw [Rat.floor_intCast_div_natCast]
      push_cast
      rfl
    rw [hv, hfl, hx, hxfl]
    refine ⟨k1, by omega, k4, ?_⟩
    have k5q : (17179869184 : ℚ) *
        (((hg_time_from_double ⟨m, -(j : Int)⟩).tv_usec : ℚ) * ((2 ^ j : Nat) : ℚ) -
          ((m % 2 ^ j * 1000000 : Int) : ℚ)) ≤ ((2 ^ j : Nat) : ℚ) := by
      exact_mod_cast k5
    have hsplit : ((hg_time_from_double ⟨m, -(j : Int)⟩).tv_usec : ℚ) -
        ((m % 2 ^ j * 1000000 : Int) : ℚ) / ((2 ^ j : Nat) : ℚ) =
        (((hg_time_from_double ⟨m, -(j : Int)⟩).tv_usec : ℚ) * ((2 ^ j : Nat) : ℚ) -
          ((m % 2 ^ j * 1000000 : Int) : ℚ)) / ((2 ^ j : Nat) : ℚ) := by
      rw [sub_div, mul_div_assoc, div_self (ne_of_gt hPq), mul_one]
    rw [hsplit, div_le_iff₀ hPq]
    linarith

/-- C10: a sleep of `(1, 0)` interrupted with `0.5 s` left (`nanosleep` returns
`-1` and stores `(0, 500000000)`), called with `rmt` pointing at `(7, 7)`,
returns `HG_UTIL_FAIL` from the early return and leaves `*rmt = (7, 7)`: the
remainder `(0, 500000)` is not handed to the caller. -/
theorem hg_time_sleep_interrupted_drops_remainder :
    hg_time_sleep ⟨0, -1⟩ ⟨1, 0⟩ (some ⟨7, 7⟩) (fun _ => (-1, ⟨0, 500000000⟩)) =
        (-1, some ⟨7, 7⟩) ∧
      (hg_time_sleep ⟨0, -1⟩ ⟨1, 0⟩ (some ⟨7, 7⟩)
          (fun _ => (-1, ⟨0, 500000000⟩))).2 ≠ some ⟨0, 500000⟩ ∧
      hg_time_sleep ⟨0, -1⟩ ⟨1, 0⟩ (some ⟨7, 7⟩) (fun _ => (0, ⟨0, 500000000⟩)) =
        (0, some ⟨0, 500000⟩) := by
  decide

/-! ## Sleeping, `_WIN32` branch -/

/-- C11: for the normalised request `(1, 0)` (one second) the `_WIN32` branch of
`hg_time_sleep` hands `0` milliseconds to `Sleep`, where the request amounts
to `1000` milliseconds: the seconds are divided by `1000`, not multiplied.
A request of `(5000, 0)` yields `5` milliseconds. -/
theorem hg_time_sleep_win32_one_second_is_zero :
    (hg_time.mk 1 0).normalised ∧
      (hg_time_sleep_win32 ⟨0, -1⟩ ⟨1, 0⟩).2 = 0 ∧
      ⌊(1000 : ℚ) * (((1 : Int) : ℚ) + ((0 : Int) : ℚ) / 1000000)⌋ = 1000 ∧
      ¬ (hg_time_sleep_win32 ⟨0, -1⟩ ⟨1, 0⟩).2 ≥
          ⌊(1000 : ℚ) * (((1 : Int) : ℚ) + ((0 : Int) : ℚ) / 1000000)⌋ ∧
      (hg_time_sleep_win32 ⟨0, -1⟩ ⟨5000, 0⟩).2 = 5 := by
  have e1 : (hg_time_sleep_win32 ⟨0, -1⟩ ⟨1, 0⟩).2 = 0 := by
    norm_num [hg_time_sleep_win32, hg_time_to_double, dword_of_double]
    decide
  have e2 : ⌊(1000 : ℚ) * (((1 : Int) : ℚ) + ((0 : Int) : ℚ) / 1000000)⌋ = 1000 := by
    norm_num
  have e3 : (hg_time_sleep_win32 ⟨0, -1⟩ ⟨5000, 0⟩).2 = 5 := by
    norm_num [hg_time_sleep_win32, hg_time_to_double, dword_of_double]
  refine ⟨by decide, e1, e2, ?_, e3⟩
  rw [e1, e2]
  decide

/-! ## Reading the clock, Mach branch -/

/-- C12: for the reading `monotonic_nsec = 5000000000` (tick count
`5000000000`, timebase `1/1`) `hg_time_get_current_mach` yields
`(5, 4999999)`: the seconds are `monotonic_nsec / 10^9`, but the microseconds
are not below `1000000` and the total is not `monotonic_nsec / 1000`, because
the seconds, not the seconds times `10^9`, are subtracted from the reading. -/
theorem hg_time_get_current_mach_five_seconds :
    hg_time_get_current_mach ⟨0, -1⟩ 0 ⟨1, 1⟩ 5000000000 = (0, ⟨5, 4999999⟩, 1) ∧
      hg_time_get_current_mach ⟨0, -1⟩ 1 ⟨1, 1⟩ 5000000000 = (0, ⟨5, 4999999⟩, 1) ∧
      (hg_time_get_current_mach ⟨0, -1⟩ 0 ⟨1, 1⟩ 5000000000).2.1.tv_sec =
        (5000000000 : Int) / 1000000000 ∧
      ¬ (hg_time_get_current_mach ⟨0, -1⟩ 0 ⟨1, 1⟩ 5000000000).2.1.normalised ∧
      (hg_time_get_current_mach ⟨0, -1⟩ 0 ⟨1, 1⟩ 5000000000).2.1.total ≠
        (5000000000 : Int) / 1000 := by
  decide

/-! ## Bulk segment test server -/

/-- C13: when the input is decoded and the first read is accepted, for a bulk
size `n` (a `size_t`) with `n / 2 + 16 ≤ n` whose split offset fits
`ptrdiff_t`, `fs_bla_write` issues exactly the reads
`(0, 0, n / 2 + 16)` and `(n / 2 + 16, n / 2 + 16, n - (n / 2 + 16))`
(remote offset, local offset, length); the two ranges are disjoint and cover
exactly `[0, n)`, and once both reads have completed, in either order, the
local block equals the remote region at every index of `[0, n)`. -/
theorem fs_bla_write_split_pull (HG_SUCCESS : Int) (rt : bla_runtime)
    (remote loc : Int → Int)
    (hn0 : 0 ≤ rt.HG_Bulk_handle_get_size)
    (hn1 : rt.HG_Bulk_handle_get_size ≤ SIZE_MAX)
    (hsplit : rt.HG_Bulk_handle_get_size / 2 + 16 ≤ rt.HG_Bulk_handle_get_size)
    (hoff : rt.HG_Bulk_handle_get_size / 2 + 16 ≤ LONG_MAX)
    (hin : rt.HG_Handler_get_input = HG_SUCCESS)
    (hr1 : rt.HG_Bulk_read1 = HG_SUCCESS) :
    bulk_reads (fs_bla_write HG_SUCCESS rt).2 =
        [(0, 0, rt.HG_Bulk_handle_get_size / 2 + 16),
          (rt.HG_Bulk_handle_get_size / 2 + 16, rt.HG_Bulk_handle_get_size / 2 + 16,
            rt.HG_Bulk_handle_get_size - (rt.HG_Bulk_handle_get_size / 2 + 16))] ∧
      (∀ i : Int, ¬ ((0 ≤ i ∧ i < 0 + (rt.HG_Bulk_handle_get_size / 2 + 16)) ∧
        (rt.HG_Bulk_handle_get_size / 2 + 16 ≤ i ∧
          i < rt.HG_Bulk_handle_get_size / 2 + 16 +
            (rt.HG_Bulk_handle_get_size - (rt.HG_Bulk_handle_get_size / 2 + 16))))) ∧
      (∀ i : Int, ((0 ≤ i ∧ i < 0 + (rt.HG_Bulk_handle_get_size / 2 + 16)) ∨
        (rt.HG_Bulk_handle_get_size / 2 + 16 ≤ i ∧
          i < rt.HG_Bulk_handle_get_size / 2 + 16 +
            (rt.HG_Bulk_handle_get_size - (rt.HG_Bulk_handle_get_size / 2 + 16)))) ↔
        (0 ≤ i ∧ i < rt.HG_Bulk_handle_get_size)) ∧
      (∀ i : Int, 0 ≤ i → i < rt.HG_Bulk_handle_get_size →
        bulk_reads_effect remote loc (bulk_reads (fs_bla_write HG_SUCCESS rt).2) i =
          remote i) ∧
      (∀ i : Int, 0 ≤ i → i < rt.HG_Bulk_handle_get_size →
        bulk_reads_effect remote loc
          (bulk_reads (fs_bla_write HG_SUCCESS rt).2).reverse i = remote i) := by
  unfold SIZE_MAX at hn1
  unfold LONG_MAX at hoff
  have e1 : wrapSize (rt.HG_Bulk_handle_get_size / 2 + 16) =
      rt.HG_Bulk_handle_get_size / 2 + 16 := by
    unfold wrapSize; omega
  have e2 : wrapLong (rt.HG_Bulk_handle_get_size / 2 + 16) =
      rt.HG_Bulk_handle_get_size / 2 + 16 := by
    unfold wrapLong; omega
  have e3 : wrapSize (rt.HG_Bulk_handle_get_size -
      (rt.HG_Bulk_handle_get_size / 2 + 16)) =
      rt.HG_Bulk_handle_get_size - (rt.HG_Bulk_handle_get_size / 2 + 16) := by
    unfold wrapSize; omega
  have hreads : bulk_reads (fs_bla_write HG_SUCCESS rt).2 =
      [(0, 0, rt.HG_Bulk_handle_get_size / 2 + 16),
        (rt.HG_Bulk_handle_get_size / 2 + 16, rt.HG_Bulk_handle_get_size / 2 + 16,
          rt.HG_Bulk_handle_get_size - (rt.HG_Bulk_handle_get_size / 2 + 16))] := by
    simp only [fs_bla_write, hin, hr1, e1, e2, e3, ne_eq, not_true_eq_false, if_false]
    split_ifs <;> simp [bulk_reads]
  rw [hreads]
  refine ⟨rfl, fun i => by omega, fun i => by omega, ?_, ?_⟩
  · intro i h0 h1
    simp only [bulk_reads_effect, List.foldl, bulk_read_effect]
    split_ifs with ha hb
    · congr 1; omega
    · congr 1; omega
    · omega
  · intro i h0 h1
    simp only [bulk_reads_effect, List.reverse_cons, List.reverse_nil, List.nil_append,
      List.singleton_append, List.foldl, bulk_read_effect]
    split_ifs with ha hb
    · congr 1; omega
    · congr 1; omega
    · omega

theorem fs_bla_write_split_pull_witness :
    bulk_reads (fs_bla_write 0 bla_runtime.split_2048).2 =
        [(0, 0, 1040), (1040, 1040, 1008)] ∧
      (∀ i : Int, ¬ ((0 ≤ i ∧ i < 0 + 1040) ∧ (1040 ≤ i ∧ i < 1040 + 1008))) ∧
      (∀ i : Int, ((0 ≤ i ∧ i < 0 + 1040) ∨ (1040 ≤ i ∧ i < 1040 + 1008)) ↔
        (0 ≤ i ∧ i < 2048)) ∧
      (∀ i : Int, 0 ≤ i → i < 2048 →
        bulk_reads_effect (fun j => j % 256) (fun _ => 0)
          (bulk_reads (fs_bla_write 0 bla_runtime.split_2048).2) i =
            (fun j => j % 256) i) ∧
      (∀ i : Int, 0 ≤ i → i < 2048 →
        bulk_reads_effect (fun j => j % 256) (fun _ => 0)
          (bulk_reads (fs_bla_write 0 bla_runtime.split_2048).2).reverse i =
            (fun j => j % 256) i) :=
  fs_bla_write_split_pull 0 bla_runtime.split_2048 (fun j => j % 256) (fun _ => 0)
    (by decide) (by decide) (by decide) (by decide) rfl rfl

/-- C14: `fs_bla_write` returns `HG_SUCCESS` exactly when all seven checked
calls return `HG_SUCCESS`; in general it returns the first status different
from `HG_SUCCESS`, and the checked calls it makes are those up to and
including that first failing one, none after it. -/
theorem fs_bla_write_status (HG_SUCCESS : Int) (rt : bla_runtime) :
    ((fs_bla_write HG_SUCCESS rt).1 = HG_SUCCESS ↔
        ∀ s ∈ rt.statuses, s = HG_SUCCESS) ∧
      (fs_bla_write HG_SUCCESS rt).1 =
        (rt.statuses.find? (fun s => decide (s ≠ HG_SUCCESS))).getD HG_SUCCESS ∧
      (fs_bla_write HG_SUCCESS rt).2.filterMap hg_call.checked =
        checked_sequence.take
          ((rt.statuses.takeWhile (fun s => decide (s = HG_SUCCESS))).length + 1) := by
  simp only [fs_bla_write]
  split_ifs <;>
    simp_all [bla_runtime.statuses, checked_sequence, hg_call.checked, List.find?,
      List.takeWhile, List.filterMap]

/-- When some `int` of the scanned part differs from its index, the checking
loop of `bla_write` leaves `error` at `1`. -/
theorem bla_write_check_mismatch (bulk_buf : Int → Int) (remaining : Nat) :
    ∀ (i error : Int),
      (∃ k : Nat, k < remaining ∧ bulk_buf (i + k) ≠ wrapInt (i + k)) →
        bla_write_check bulk_buf remaining i error = 1 := by
  induction remaining with
  | zero =>
    intro i error h
    obtain ⟨k, hk, _⟩ := h
    omega
  | succ r ih =>
    intro i error h
    obtain ⟨k, hk, hne⟩ := h
    unfold bla_write_check
    split_ifs with hc
    · rfl
    · apply ih
      cases k with
      | zero =>
        exfalso
        apply hc
        simpa using hne
      | succ j =>
        refine ⟨j, by omega, ?_⟩
        have e : i + 1 + (j : Int) = i + ((j + 1 : Nat) : Int) := by push_cast; ring
        rw [e]
        exact hne

/-- C16: `bla_write` returns `nbyte` for every buffer and every `nbyte`, also
when it detects an error (`nbyte = 0`, or an `int` of the scanned part that
differs from its index); `fs_bla_write` does not depend on the content of the
local block, and when all checked calls return `HG_SUCCESS` it replies once,
with `ret` equal to the bulk handle size converted to `int`. -/
theorem fs_bla_write_reply (HG_SUCCESS : Int) (rt : bla_runtime)
    (hall : ∀ s ∈ rt.statuses, s = HG_SUCCESS) :
    (∀ (fildes : Int) (bulk_buf : Int → Int) (nbyte : Int),
        (bla_write fildes bulk_buf nbyte).1 = nbyte) ∧
      (∀ (fildes : Int) (bulk_buf : Int → Int) (nbyte : Int),
        (nbyte = 0 ∨ ∃ k : Nat, k < (nbyte / 4).toNat ∧ bulk_buf k ≠ wrapInt k) →
          (bla_write fildes bulk_buf nbyte).2.2 = 1 ∧
            (bla_write fildes bulk_buf nbyte).1 = nbyte) ∧
      (∀ block : Int → Int,
        fs_bla_write HG_SUCCESS { rt with block := block } =
          fs_bla_write HG_SUCCESS rt) ∧
      start_outputs (fs_bla_write HG_SUCCESS rt).2 =
        [wrapInt rt.HG_Bulk_handle_get_size] := by
  refine ⟨fun _ _ _ => rfl, ?_, fun _ => rfl, ?_⟩
  · intro fildes bulk_buf nbyte h
    refine ⟨?_, rfl⟩
    rcases h with h0 | hk
    · subst h0
      rfl
    · obtain ⟨k, hk1, hk2⟩ := hk
      simp only [bla_write]
      apply bla_write_check_mismatch
      exact ⟨k, hk1, by simpa using hk2⟩
  · simp only [bla_runtime.statuses, List.mem_cons, List.mem_singleton,
      List.not_mem_nil, or_false, forall_eq_or_imp, forall_eq] at hall
    obtain ⟨h1, h2, h3, h4, h5, h6, h7⟩ := hall
    simp [fs_bla_write, h1, h2, h3, h4, h5, h6, h7, start_outputs, bla_write]

theorem fs_bla_write_reply_witness :
    (∀ (fildes : Int) (bulk_buf : Int → Int) (nbyte : Int),
        (bla_write fildes bulk_buf nbyte).1 = nbyte) ∧
      (∀ (fildes : Int) (bulk_buf : Int → Int) (nbyte : Int),
        (nbyte = 0 ∨ ∃ k : Nat, k < (nbyte / 4).toNat ∧ bulk_buf k ≠ wrapInt k) →
          (bla_write fildes bulk_buf nbyte).2.2 = 1 ∧
            (bla_write fildes bulk_buf nbyte).1 = nbyte) ∧
      (∀ block : Int → Int,
        fs_bla_write 0 { bla_runtime.split_2048 with block := block } =
          fs_bla_write 0 bla_runtime.split_2048) ∧
      start_outputs (fs_bla_write 0 bla_runtime.split_2048).2 = [2048] :=
  fs_bla_write_reply 0 bla_runtime.split_2048 (by decide)

/-! ## Calls on the RPC handle -/

/-- A sequence without completion completes at most once. -/
theorem completes_at_most_once_of_not_mem (l : List handle_op)
    (h : handle_op.complete ∉ l) : completes_at_most_once l := by
  refine ⟨?_, ?_⟩
  · rw [List.count_eq_zero_of_not_mem h]
    exact Nat.zero_le 1
  · intro pre post hl
    exfalso
    apply h
    rw [hl]
    simp

/-- The first completion of `p ++ [complete]`, `p` without completion, is its
last element. -/
theorem append_complete_inj (p : List handle_op) (h : handle_op.complete ∉ p) :
    ∀ pre post : List handle_op,
      p ++ [handle_op.complete] = pre ++ handle_op.complete :: post →
        pre = p ∧ post = [] := by
  induction p with
  | nil =>
    intro pre post hl
    cases pre with
    | nil =>
      simp only [List.nil_append, List.cons.injEq, true_and] at hl
      exact ⟨rfl, hl.symm⟩
    | cons b pre' =>
      simp only [List.nil_append, List.cons_append, List.cons.injEq] at hl
      have := hl.2
      simp at this
  | cons a p' ih =>
    intro pre post hl
    have ha : handle_op.complete ≠ a := fun e => h (by simp [e])
    have hp : handle_op.complete ∉ p' := fun e => h (by simp [e])
    cases pre with
    | nil =>
      simp only [List.cons_append, List.nil_append, List.cons.injEq] at hl
      exact absurd hl.1.symm ha
    | cons b pre' =>
      simp only [List.cons_append, List.cons.injEq] at hl
      obtain ⟨e1, e2⟩ := ih hp pre' post hl.2
      exact ⟨by rw [e1, hl.1], e2⟩

/-- A sequence ending in its only completion, after exactly one input
decoding, a successful one, completes at most once. -/
theorem completes_at_most_once_of_append (p : List handle_op)
    (h : handle_op.complete ∉ p)
    (hg : p.filter handle_op.is_get_input = [handle_op.get_input true]) :
    completes_at_most_once (p ++ [handle_op.complete]) := by
  refine ⟨?_, ?_⟩
  · rw [List.count_append, List.count_eq_zero_of_not_mem h, List.count_singleton_self]
  · intro pre post hl
    obtain ⟨e1, e2⟩ := append_complete_inj p h pre post hl
    rw [e1, e2]
    exact ⟨rfl, hg⟩

/-- The executable test is sound. -/
theorem completes_at_most_once_of_check (l : List handle_op)
    (h : completes_at_most_once_check l = true) : completes_at_most_once l := by
  have hsplit := List.takeWhile_append_dropWhile
    (fun c => decide (c ≠ handle_op.complete)) l
  have hpre : handle_op.complete ∉
      l.takeWhile (fun c => decide (c ≠ handle_op.complete)) := by
    intro hm
    have := List.mem_takeWhile_imp hm
    simp at this
  simp only [completes_at_most_once_check, Bool.or_eq_true, Bool.and_eq_true,
    decide_eq_true_eq] at h
  rcases h with h | ⟨h1, h2⟩
  · rw [h, List.append_nil] at hsplit
    rw [← hsplit]
    exact completes_at_most_once_of_not_mem _ hpre
  · rw [h1] at hsplit
    rw [← hsplit]
    exact completes_at_most_once_of_append _ hpre h2

/-- C15: for every handler of the two test servers and every combination of
results of the runtime calls, the calls made on the RPC handle contain at
most one completion, that completion is preceded by exactly one input
decoding, a successful one, and no call on the handle follows it. -/
theorem handlers_complete_at_most_once (S_SUCCESS HG_SUCCESS : Int)
    (rt : fs_runtime) (finalizing : Int) (brt : bla_runtime) :
    completes_at_most_once
        ((server_finalize S_SUCCESS rt finalizing).2.2.filterMap
          (fs_call.handle_op S_SUCCESS)) ∧
      completes_at_most_once
        ((server_posix_open S_SUCCESS rt).2.filterMap (fs_call.handle_op S_SUCCESS)) ∧
      completes_at_most_once
        ((server_posix_close S_SUCCESS rt).2.filterMap (fs_call.handle_op S_SUCCESS)) ∧
      completes_at_most_once
        ((server_posix_write S_SUCCESS rt).2.filterMap (fs_call.handle_op S_SUCCESS)) ∧
      completes_at_most_once
        ((server_posix_read S_SUCCESS rt).2.filterMap (fs_call.handle_op S_SUCCESS)) ∧
      completes_at_most_once
        ((fs_bla_write HG_SUCCESS brt).2.filterMap (hg_call.handle_op HG_SUCCESS)) := by
  refine ⟨?_, ?_, ?_, ?_, ?_, ?_⟩
  · apply completes_at_most_once_of_check
    simp only [server_finalize]
    split_ifs <;> simp_all [fs_call.handle_op, List.filterMap] <;> rfl
  · apply completes_at_most_once_of_check
    simp only [server_posix_open]
    split_ifs <;> simp_all [fs_call.handle_op, List.filterMap] <;> rfl
  · apply completes_at_most_once_of_check
    simp only [server_posix_close]
    split_ifs <;> simp_all [fs_call.handle_op, List.filterMap] <;> rfl
  · apply completes_at_most_once_of_check
    simp only [server_posix_write]
    split_ifs <;> simp_all [fs_call.handle_op, List.filterMap] <;> rfl
  · apply completes_at_most_once_of_check
    simp only [server_posix_read]
    split_ifs <;> simp_all [fs_call.handle_op, List.filterMap] <;> rfl
  · apply completes_at_most_once_of_check
    simp only [fs_bla_write]
    split_ifs <;> simp_all [hg_call.handle_op, List.filterMap] <;> rfl

end Mercury
